import Mathlib

/-
Verification development for the vault-rag indexing and retrieval engine.

The TypeScript sources are embedded shallowly:
* JavaScript numbers are modelled as rationals; the floating-point
  Number.isFinite guard in recencyBoost is therefore always true and the
  non-finite branch collapses into the non-positive-age branch, which the
  source treats identically (both return the full weight).
* JavaScript Map objects are modelled as association lists whose set
  operation replaces the value in place (JS Maps keep the insertion
  position of an updated key) and appends unknown keys.
* Array.prototype.sort with a numeric comparator is a stable sort; it is
  modelled by the stable insertion sort sortByDesc below.
* Fallible operations (the embedding adapter, the FTS engine) are
  modelled with Except; a thrown exception is an Except.error value and
  the absence of a catch propagates the error.
-/

deriving instance DecidableEq for Except

namespace VaultRag

/-- Chunk categories from src/core/types.ts (ChunkType). -/
inductive ChunkType where
  | text
  | code
  | table
  | callout
  | list
  | quote
deriving DecidableEq, Repr

/-- ChunkRecord from src/core/types.ts.  The frontmatter field (an opaque
JSON object never inspected by the indexer or retriever) is omitted.
Embeddings are optional exactly as in the source (absent until the
embedding adapter has produced a vector). -/
structure ChunkRecord where
  chunkId : String
  filePath : String
  noteTitle : String
  headingPath : List String
  ordinal : Nat
  chunkType : ChunkType
  tags : List String
  links : List String
  mtime : ℚ
  content : String
  representation : String
  contentHash : String
  tokens : Nat
  embedding : Option (List ℚ)
deriving DecidableEq, Repr

/-- RankedChunk from src/core/types.ts: a chunk with a retrieval score. -/
structure RankedChunk where
  chunk : ChunkRecord
  score : ℚ
deriving DecidableEq, Repr

/-- RetrievalFilters from src/core/types.ts. -/
structure RetrievalFilters where
  pathPrefix : Option String
  tags : Option (List String)
  chunkTypes : Option (List ChunkType)
deriving DecidableEq, Repr

/-- RetrievalConfiguration (the fields used by the retriever). -/
structure RetrievalConfiguration where
  vector_top_k : Nat
  lexical_top_k : Nat
  fusionWeightVector : ℚ
  fusionWeightLexical : ℚ
  mmr_lambda : ℚ
  rerank_top_n : Nat
  recency_boost : ℚ
deriving DecidableEq, Repr

/-- The diversification_pool field, kept separate so the record above
stays small; bundled back together in RetrievalConfig. -/
structure RetrievalConfig extends RetrievalConfiguration where
  diversification_pool : Nat
deriving DecidableEq, Repr

/-- The feature flags consumed by HybridRetriever.retrieve. -/
structure FeatureFlags where
  hybrid_retrieval : Bool
  reranking : Bool
  mmr_diversification : Bool
deriving DecidableEq, Repr

/-- Stable insert for a descending sort keyed by f: the new element is
placed before the first element whose key is strictly smaller, hence
after all earlier elements with an equal key. -/
def insertDescBy (f : α → ℚ) (a : α) : List α → List α
  | [] => [a]
  | b :: l => if f a < f b then b :: insertDescBy f a l else a :: b :: l

/-- Stable descending sort by the key f.  This models
Array.prototype.sort with the comparator (a, b) => f b - f a: the
ECMAScript sort is required to be stable, and a stable sort that orders
by a total key is extensionally unique, so any stable implementation is
a faithful translation. -/
def sortByDesc (f : α → ℚ) : List α → List α
  | [] => []
  | a :: l => insertDescBy f a (sortByDesc f l)

/-- dot from src/core/retrieval/index.ts: sum of products over the
common prefix of the two vectors (zip truncates to the minimum length
exactly as the loop bound Math.min does). -/
def dot (left right : List ℚ) : ℚ :=
  ((left.zip right).map fun p => p.1 * p.2).sum

/-- recencyBoost from src/core/retrieval/index.ts.  Over the rationals
the Number.isFinite test always passes, so the guard reduces to the
age-non-positive test; both branches of the source return the full
weight. -/
def recencyBoost (now : ℚ) (mtime : ℚ) (weight : ℚ) : ℚ :=
  if weight ≤ 0 then 0
  else
    let ageDays := (now - mtime) / (1000 * 60 * 60 * 24)
    if ageDays ≤ 0 then weight else weight / (1 + ageDays)

/-- matchesFilters from src/core/retrieval/index.ts.  A JS truthiness
test on a string option is true only for a present, non-empty string. -/
def matchesFilters (chunk : ChunkRecord) (filters : RetrievalFilters) : Bool :=
  (match RetrievalFilters.pathPrefix filters with
    | none => true
    | some p => p = "" || chunk.filePath.startsWith p) &&
  (match filters.tags with
    | none => true
    | some ts => ts.length = 0 || ts.any fun tag => chunk.tags.contains tag) &&
  (match filters.chunkTypes with
    | none => true
    | some cts => cts.length = 0 || cts.contains chunk.chunkType)

/-- HybridRetriever.scoreVectorCandidates: filter, score by dot product
plus recency boost, stable-sort descending, keep the top limit. -/
def scoreVectorCandidates (allChunks : List ChunkRecord) (now : ℚ)
    (recencyWeight : ℚ) (queryEmbedding : List ℚ) (limit : Nat)
    (filters : Option RetrievalFilters) : List RankedChunk :=
  let filtered := match filters with
    | some fs => allChunks.filter fun chunk => matchesFilters chunk fs
    | none => allChunks
  let scored := filtered.map fun chunk =>
    RankedChunk.mk chunk
      (dot (chunk.embedding.getD []) queryEmbedding +
        recencyBoost now chunk.mtime recencyWeight)
  (sortByDesc (fun entry => entry.score) scored).take limit

/-- JS Map.set: replace the value of an existing key in place (keeping
its insertion position) or append a new key at the end. -/
def mapSet (m : List (String × β)) (k : String) (v : β) : List (String × β) :=
  match m with
  | [] => [(k, v)]
  | (k', v') :: rest =>
      if k' = k then (k', v) :: rest else (k', v') :: mapSet rest k v

/-- Map lookup (keys are unique in every map built with mapSet). -/
def mapGet (m : List (String × β)) (k : String) : Option β :=
  match m with
  | [] => none
  | (k', v) :: rest => if k' = k then some v else mapGet rest k

/-- scores.set(id, (scores.get(id) ?? 0) + contribution). -/
def mapAdd (m : List (String × ℚ)) (k : String) (v : ℚ) : List (String × ℚ) :=
  mapSet m k ((mapGet m k).getD 0 + v)

/-- One fusion pass of fuseCandidates: fold a ranked list into the
running score map, rank r contributing weight / (1 + r). -/
def fuseAccumulate (weight : ℚ) (ids : List String)
    (m : List (String × ℚ)) : List (String × ℚ) :=
  ids.enum.foldl
    (fun acc p => mapAdd acc p.2 (weight / (1 + (p.1 : ℚ)))) m

/-- uniqueChunks construction of fuseCandidates: last write wins. -/
def collectUniqueChunks (entries : List ChunkRecord)
    (m : List (String × ChunkRecord)) : List (String × ChunkRecord) :=
  entries.foldl (fun acc chunk => mapSet acc chunk.chunkId chunk) m

/-- fuseCandidates from src/core/retrieval/index.ts: rank-reciprocal
contributions keyed by chunkId, summed across the two lists, then
stable-sorted descending by the fused score. -/
def fuseCandidates (vectorScores : List RankedChunk)
    (lexicalScores : List (ChunkRecord × ℚ))
    (weightVector weightLexical : ℚ) : List RankedChunk :=
  let scores := fuseAccumulate weightLexical
    (lexicalScores.map fun entry => entry.1.chunkId)
    (fuseAccumulate weightVector
      (vectorScores.map fun entry => entry.chunk.chunkId) [])
  let uniqueChunks := collectUniqueChunks (lexicalScores.map Prod.fst)
    (collectUniqueChunks (vectorScores.map fun entry => entry.chunk) [])
  sortByDesc (fun entry => entry.score)
    (scores.filterMap fun p =>
      (mapGet uniqueChunks p.1).map fun chunk => RankedChunk.mk chunk p.2)

/-- Proof-level abbreviation: the total rank-reciprocal contribution a
key collects from one ranked id list whose first element has rank n. -/
def rankContribSum (w : ℚ) (n : Nat) (ids : List String) (k : String) : ℚ :=
  (((ids.enumFrom n).filter fun p => p.2 = k).map
    fun p => w / (1 + (p.1 : ℚ))).sum

/-- dedupeFused from src/core/retrieval/index.ts: keep at most two
chunks per file, preserving order (the per-document cap of 2). -/
def dedupeFusedGo (seenFiles : List (String × Nat)) :
    List RankedChunk → List RankedChunk
  | [] => []
  | entry :: rest =>
      let count := (mapGet seenFiles entry.chunk.filePath).getD 0
      if 2 ≤ count then dedupeFusedGo seenFiles rest
      else entry ::
        dedupeFusedGo (mapSet seenFiles entry.chunk.filePath (count + 1)) rest

/-- dedupeFused entry point. -/
def dedupeFused (entries : List RankedChunk) : List RankedChunk :=
  dedupeFusedGo [] entries

/-- cosineSimilarity from src/core/retrieval/mmr.ts (despite the name it
is a plain dot product over the common prefix). -/
def cosineSimilarity (left right : List ℚ) : ℚ :=
  if left.length = 0 ∨ right.length = 0 then 0 else dot left right

/-- The running argmax of the MMR selection loop: bestScore starts at
negative infinity, so the first candidate always becomes the initial
best and later candidates must be strictly greater. -/
def argmaxIdxGo (l : List ℚ) (i : Nat) (best : Nat) (bestScore : ℚ) : Nat :=
  match l with
  | [] => best
  | s :: rest =>
      if bestScore < s then argmaxIdxGo rest (i + 1) i s
      else argmaxIdxGo rest (i + 1) best bestScore

/-- Index of the first strict maximum of a score list (0 on empty). -/
def argmaxIdx : List ℚ → Nat
  | [] => 0
  | s :: rest => argmaxIdxGo rest 1 0 s

/-- Math.max over the similarities to the already selected chunks; 0
when nothing is selected yet, as in applyMmr. -/
def mmrDiversity (selected : List RankedChunk) (candidate : RankedChunk) : ℚ :=
  match selected.map
    (fun entry => cosineSimilarity (entry.chunk.embedding.getD [])
      (candidate.chunk.embedding.getD [])) with
  | [] => 0
  | s :: rest => rest.foldl max s

/-- The MMR score lambda * relevance - (1 - lambda) * diversity. -/
def mmrScore (lambda : ℚ) (selected : List RankedChunk)
    (candidate : RankedChunk) : ℚ :=
  lambda * candidate.score - (1 - lambda) * mmrDiversity selected candidate

theorem argmaxIdxGo_lt (l : List ℚ) (i best : Nat) (bestScore : ℚ)
    (h : best < i) : argmaxIdxGo l i best bestScore < i + l.length := by
  induction l generalizing i best bestScore with
  | nil => simpa using h
  | cons s rest ih =>
      simp only [argmaxIdxGo, List.length_cons]
      split
      · have := ih (i + 1) i s (Nat.lt_succ_self i)
        omega
      · have := ih (i + 1) best bestScore (Nat.lt_succ_of_lt h)
        omega

theorem argmaxIdx_lt (l : List ℚ) (h : l ≠ []) : argmaxIdx l < l.length := by
  match l with
  | [] => exact absurd rfl h
  | s :: rest =>
      have := argmaxIdxGo_lt rest 1 0 s Nat.one_pos
      simp only [argmaxIdx, List.length_cons]
      omega

/-- The while loop of applyMmr: pick the candidate with the greatest MMR
score (first index wins ties), move it from remaining to selected, stop
when topN chunks are selected or the pool is exhausted.  Every iteration
removes exactly one candidate (the argmax index is always in range), so
the loop is driven by a fuel equal to the pool size; fuel 0 coincides
with an exhausted pool. -/
def applyMmrGo (lambda : ℚ) (topN : Nat) :
    Nat → List RankedChunk → List RankedChunk → List RankedChunk
  | 0, selected, _ => selected
  | fuel + 1, selected, remaining =>
      if h : selected.length < topN ∧ remaining ≠ [] then
        let scored := remaining.map fun c => mmrScore lambda selected c
        let bestIndex := argmaxIdx scored
        let next := remaining.get ⟨bestIndex, by
          have := argmaxIdx_lt scored (by
            simpa [scored, List.map_eq_nil_iff] using h.2)
          simpa [scored] using this⟩
        applyMmrGo lambda topN fuel (selected ++ [next])
          (remaining.eraseIdx bestIndex)
      else selected

/-- applyMmr from src/core/retrieval/mmr.ts. -/
def applyMmr (candidates : List RankedChunk) (topN : Nat)
    (lambda : ℚ) : List RankedChunk :=
  if candidates.length ≤ topN then candidates
  else applyMmrGo lambda topN candidates.length [] candidates

/-- OllamaReranker.rerank from src/core/retrieval/reranker.ts after the
model response has been parsed by safeParseIds: orderedIds is the parsed
id list (empty when parsing failed, which makes rerank degrade to the
input order).  Mentioned ids come first in response order; candidates
whose id is not mentioned keep their order afterwards. -/
def rerank (candidates : List RankedChunk) (orderedIds : List String) :
    List RankedChunk :=
  if candidates.length ≤ 1 then candidates
  else if orderedIds.length = 0 then candidates
  else
    let byId := candidates.foldl
      (fun acc entry => mapSet acc entry.chunk.chunkId entry) []
    (orderedIds.filterMap fun id => mapGet byId id) ++
      candidates.filter fun entry => ¬ orderedIds.contains entry.chunk.chunkId

/-- HybridRetriever.retrieve from src/core/retrieval/index.ts.  The
store is represented by its listAllChunks contents and by the lexical
candidate list that lexicalSearch would return for the question (the
retriever treats both as opaque inputs); the optional reranker is
represented by the parsed id list of its response, none when no
reranker is configured. -/
def retrieve (features : FeatureFlags) (cfg : RetrievalConfig)
    (allChunks : List ChunkRecord) (now : ℚ)
    (lexicalResults : List (ChunkRecord × ℚ))
    (rerankerIds : Option (List String)) (questionEmbedding : List ℚ)
    (filters : Option RetrievalFilters) : List RankedChunk :=
  let vectorCandidates := scoreVectorCandidates allChunks now
    cfg.recency_boost questionEmbedding cfg.vector_top_k filters
  let lexicalCandidates := if features.hybrid_retrieval then lexicalResults else []
  let fused := fuseCandidates vectorCandidates lexicalCandidates
    cfg.fusionWeightVector cfg.fusionWeightLexical
  let deduped := dedupeFused fused
  let diversified :=
    if features.mmr_diversification ∧ cfg.rerank_top_n < deduped.length then
      applyMmr (deduped.take cfg.diversification_pool) cfg.rerank_top_n
        cfg.mmr_lambda
    else deduped.take cfg.rerank_top_n
  match rerankerIds with
  | some ids => if features.reranking then rerank diversified ids else diversified
  | none => diversified

/-! Chunker (src/core/chunking/markdownChunker.ts).  The claims concern
the draft pass, the merge pass and the chunk-type resolution, so the
embedding covers the block-to-draft machinery; the outer chunkMarkdown
wrapper (frontmatter parsing, hashing, representation building) is not
needed by any claim. -/

/-- The typed blocks produced by the single-pass line scanner. -/
inductive MarkdownBlockType where
  | heading
  | paragraph
  | list
  | code
  | table
  | callout
  | quote
  | hr
deriving DecidableEq, Repr

/-- MarkdownBlock: a parsed block with its token weight and whether it
forces a strong chunk boundary. -/
structure MarkdownBlock where
  type : MarkdownBlockType
  depth : Option Nat
  text : String
  tokens : Nat
  strongBoundary : Bool
deriving DecidableEq, Repr

/-- ChunkDraft: an intermediate chunk before ids are assigned; mergeable
records whether the draft was flushed by the size trigger. -/
structure ChunkDraft where
  text : String
  headingPath : List String
  tokens : Nat
  chunkType : ChunkType
  mergeable : Bool
deriving DecidableEq, Repr

/-- ChunkingConfiguration (the fields the draft pass reads). -/
structure ChunkingConfiguration where
  target_tokens : Nat
  max_tokens : Nat
  min_tokens : Nat
  overlap_tokens : Nat
  merge_small_chunks : Bool
deriving DecidableEq, Repr

/-- String.prototype.trim: drop leading and trailing whitespace.
Implemented structurally over the character list (extensionally the
same as String.trim, whose substring-based implementation does not
evaluate under kernel reduction). -/
def trimWhitespace (s : String) : String :=
  String.mk
    (((s.data.dropWhile Char.isWhitespace).reverse.dropWhile
      Char.isWhitespace).reverse)

/-- Maximal runs of non-whitespace characters: the accumulator variant
of text.split(/\s+/).filter(Boolean). -/
def whitespaceWordsGo (chars : List Char) (current : String) : List String :=
  match chars with
  | [] => if current = "" then [] else [current]
  | c :: rest =>
      if c.isWhitespace then
        if current = "" then whitespaceWordsGo rest ""
        else current :: whitespaceWordsGo rest ""
      else whitespaceWordsGo rest (current.push c)

/-- The whitespace-separated words of a string. -/
def whitespaceWords (s : String) : List String :=
  whitespaceWordsGo s.data ""

/-- approximateTokens: whitespace-separated word count. -/
def approximateTokens (text : String) : Nat :=
  if trimWhitespace text = "" then 0
  else (whitespaceWords text).length

/-- resolveChunkType block-type token counts, in the insertion order of
the counts record literal (text, code, table, callout, list, quote).
Heading, hr and paragraph blocks fall to the default text bucket. -/
def chunkTypeCounts (blocks : List MarkdownBlock) (t : ChunkType) : Nat :=
  (blocks.filter fun block =>
    match block.type with
    | .code => t = ChunkType.code
    | .table => t = ChunkType.table
    | .callout => t = ChunkType.callout
    | .list => t = ChunkType.list
    | .quote => t = ChunkType.quote
    | _ => t = ChunkType.text).foldl (fun acc block => acc + block.tokens) 0

/-- The insertion order of the counts record literal of resolveChunkType. -/
def chunkTypeOrder : List ChunkType :=
  [ChunkType.text, ChunkType.code, ChunkType.table, ChunkType.callout,
    ChunkType.list, ChunkType.quote]

/-- Position of a chunk type in the record-literal insertion order. -/
def chunkTypeOrderIndex : ChunkType → Nat
  | ChunkType.text => 0
  | ChunkType.code => 1
  | ChunkType.table => 2
  | ChunkType.callout => 3
  | ChunkType.list => 4
  | ChunkType.quote => 5

/-- Object.entries(counts) in the insertion order of the record literal. -/
def chunkTypeEntries (blocks : List MarkdownBlock) : List (ChunkType × Nat) :=
  chunkTypeOrder.map fun t => (t, chunkTypeCounts blocks t)

/-- resolveChunkType from markdownChunker.ts: stable-sort the count
entries descending and take the first type (the ?? "text" fallback is
kept although the entry list is never empty). -/
def resolveChunkType (blocks : List MarkdownBlock) : ChunkType :=
  ((sortByDesc (fun e => (e.2 : ℚ)) (chunkTypeEntries blocks)).head?.map
    Prod.fst).getD ChunkType.text

/-- sameHeadingPath from markdownChunker.ts. -/
def sameHeadingPath (left right : List String) : Bool :=
  left = right

/-- mergeSmallChunks from markdownChunker.ts: a draft under the minimum
token threshold is folded into the previous emitted draft when both are
mergeable (size-flushed) and the heading paths agree; the merged text is
re-tokenized. -/
def mergeSmallChunksGo (minTokens : Nat) (merged : List ChunkDraft) :
    List ChunkDraft → List ChunkDraft
  | [] => merged.reverse
  | draft :: rest =>
      match merged with
      | previous :: tail =>
          if draft.tokens < minTokens ∧ previous.mergeable = true ∧
              draft.mergeable = true ∧
              sameHeadingPath previous.headingPath draft.headingPath = true then
            let text := trimWhitespace (previous.text ++ "\n\n" ++ draft.text)
            mergeSmallChunksGo minTokens
              ({ previous with
                  text := text
                  tokens := approximateTokens text } :: tail) rest
          else mergeSmallChunksGo minTokens (draft :: previous :: tail) rest
      | [] => mergeSmallChunksGo minTokens [draft] rest

/-- mergeSmallChunks entry point (the merged array of the source is kept
reversed inside the accumulator of the loop above). -/
def mergeSmallChunks (drafts : List ChunkDraft) (minTokens : Nat) :
    List ChunkDraft :=
  if drafts.length ≤ 1 then drafts
  else mergeSmallChunksGo minTokens [] drafts

/-- updateHeadingStack: truncate the heading stack to depth - 1 and
write the heading at position depth - 1.  A JS array assignment past the
current length creates undefined holes, modelled by none padding. -/
def updateHeadingStack (stack : List (Option String)) (depth : Option Nat)
    (text : String) : List (Option String) :=
  match depth with
  | none => stack
  | some d =>
      let targetDepth := max 1 d
      let truncated := stack.take (targetDepth - 1)
      truncated ++ List.replicate (targetDepth - 1 - truncated.length) none ++
        [some (trimWhitespace text)]

/-- buildHeadingPath: the note title followed by the present, non-empty
stack entries, skipping an entry equal to the previous path element
(undefined holes in the stack are skipped by the falsiness test). -/
def buildHeadingPath (noteTitle : String) (headings : List (Option String)) :
    List String :=
  headings.foldl
    (fun path heading =>
      match heading with
      | none => path
      | some h =>
          if h = "" then path
          else if path.getLast? = some h then path
          else path ++ [h])
    [noteTitle]

/-- makeOverlapBlock: the bounded overlap tail carried into the next
chunk after a size-triggered flush; disabled when the overlap budget is
zero, when the closing block was a strong boundary, or when the chunk
has no more tokens than the budget. -/
def makeOverlapBlock (text : String) (overlapTokens : Nat)
    (blocks : List MarkdownBlock) : Option MarkdownBlock :=
  if overlapTokens = 0 then none
  else
    match blocks.getLast? with
    | none => none
    | some lastBlock =>
        if lastBlock.strongBoundary then none
        else
          let tokens := whitespaceWords text
          if tokens.length ≤ overlapTokens then none
          else
            let overlapSlice := tokens.drop (tokens.length - overlapTokens)
            let overlapText := String.intercalate " " overlapSlice
            some { type := MarkdownBlockType.paragraph
                   depth := none
                   text := overlapText
                   tokens := overlapSlice.length
                   strongBoundary := false }

/-- The reasons a chunk draft can be flushed. -/
inductive FlushReason where
  | size
  | boundary
  | heading
  | ending
deriving DecidableEq, Repr

/-- Mutable state of the draft pass of buildChunkDrafts. -/
structure DraftState where
  drafts : List ChunkDraft
  headingStack : List (Option String)
  chunkBlocks : List MarkdownBlock
  chunkTokens : Nat
  overlapBuffer : Option MarkdownBlock
deriving Repr

/-- flushChunk from buildChunkDrafts: emit the accumulated blocks as a
draft (unless empty or whitespace-only), mark it mergeable exactly when
the flush was size-triggered, and stage the overlap buffer for the next
chunk on a size flush. -/
def flushChunk (config : ChunkingConfiguration) (noteTitle : String)
    (st : DraftState) (reason : FlushReason) : DraftState :=
  if st.chunkBlocks.length = 0 then st
  else
    let text := trimWhitespace (String.intercalate "\n\n"
      (st.chunkBlocks.map fun block => block.text))
    if text = "" then
      { st with chunkBlocks := [], chunkTokens := 0, overlapBuffer := none }
    else
      let headingPath := buildHeadingPath noteTitle st.headingStack
      let draft : ChunkDraft :=
        { text := text
          headingPath := headingPath
          tokens := st.chunkTokens
          chunkType := resolveChunkType st.chunkBlocks
          mergeable := reason = FlushReason.size }
      let overlapBuffer :=
        if reason = FlushReason.size then
          makeOverlapBlock text config.overlap_tokens st.chunkBlocks
        else none
      { drafts := st.drafts ++ [draft]
        headingStack := st.headingStack
        chunkBlocks := overlapBuffer.toList
        chunkTokens := (overlapBuffer.map fun b => b.tokens).getD 0
        overlapBuffer := overlapBuffer }

/-- The body of the block loop of buildChunkDrafts for one block. -/
def draftStep (config : ChunkingConfiguration) (noteTitle : String)
    (st : DraftState) (block : MarkdownBlock) : DraftState :=
  if block.type = MarkdownBlockType.heading then
    let st := flushChunk config noteTitle st FlushReason.heading
    { st with headingStack :=
        updateHeadingStack st.headingStack block.depth block.text }
  else
    let st :=
      if block.strongBoundary ∧ 0 < st.chunkBlocks.length then
        flushChunk config noteTitle st FlushReason.boundary
      else st
    let st :=
      if st.chunkBlocks.length = 0 then
        match st.overlapBuffer with
        | some buffer =>
            { st with
              chunkBlocks := [buffer]
              chunkTokens := st.chunkTokens + buffer.tokens
              overlapBuffer := none }
        | none => st
      else st
    let st := { st with
      chunkBlocks := st.chunkBlocks ++ [block]
      chunkTokens := st.chunkTokens + block.tokens }
    if block.strongBoundary then
      flushChunk config noteTitle st FlushReason.boundary
    else if config.target_tokens ≤ st.chunkTokens ∨
        config.max_tokens ≤ st.chunkTokens then
      flushChunk config noteTitle st FlushReason.size
    else st

/-- buildChunkDrafts from markdownChunker.ts: fold the blocks through
the draft machine and flush the trailing chunk at the end of input. -/
def buildChunkDrafts (blocks : List MarkdownBlock)
    (config : ChunkingConfiguration) (noteTitle : String) : List ChunkDraft :=
  let final := flushChunk config noteTitle
    (blocks.foldl (draftStep config noteTitle)
      { drafts := []
        headingStack := []
        chunkBlocks := []
        chunkTokens := 0
        overlapBuffer := none })
    FlushReason.ending
  final.drafts

/-! Lexical search (SqliteVectorStore.lexicalSearch and toFtsQuery from
src/core/store/index.ts).  The FTS engine behind the MATCH query is an
external collaborator, modelled as an oracle returning either rows of
(chunk_id, bm25 score) or an error; the try/catch around the query maps
the error to the empty result list. -/

/-- A character matched by the token regex [A-Za-z0-9_]+. -/
def isFtsTokenChar (c : Char) : Bool :=
  (('A' ≤ c ∧ c ≤ 'Z') ∨ ('a' ≤ c ∧ c ≤ 'z') ∨ ('0' ≤ c ∧ c ≤ '9') ∨ c = '_')

/-- The maximal runs of token characters of the input, in order; this is
input.match(/[A-Za-z0-9_]+/g) ?? []. -/
def ftsTokensGo (chars : List Char) (current : String) : List String :=
  match chars with
  | [] => if current = "" then [] else [current]
  | c :: rest =>
      if isFtsTokenChar c then ftsTokensGo rest (current.push c)
      else if current = "" then ftsTokensGo rest ""
      else current :: ftsTokensGo rest ""

/-- Token list of a query string. -/
def ftsTokens (input : String) : List String :=
  ftsTokensGo input.data ""

/-- Double every double quote inside a token (tokens never contain one,
but the source escapes defensively). -/
def escapeFtsToken (token : String) : String :=
  String.mk (token.data.flatMap fun c => if c = '"' then [c, c] else [c])

/-- toFtsQuery from src/core/store/index.ts: quote every token and join
with AND; the empty string signals an untokenizable query. -/
def toFtsQuery (input : String) : String :=
  let tokens := ftsTokens input
  if tokens.length = 0 then ""
  else String.intercalate " AND "
    (tokens.map fun token => "\"" ++ escapeFtsToken token ++ "\"")

/-- SqliteVectorStore.lexicalSearch.  ftsEngine is the oracle for the
MATCH query (already ordered by bm25 score and limited); the catch
around it returns the empty result set.  The surviving rows are hydrated
from the chunk table, filtered, and rescored to 1 / (score + 1). -/
def lexicalSearch (ftsEngine : String → Nat → Except String (List (String × ℚ)))
    (storeChunks : List ChunkRecord) (query : String) (limit : Nat)
    (filters : Option RetrievalFilters) : List (ChunkRecord × ℚ) :=
  if trimWhitespace query = "" then []
  else
    let ftsQuery := toFtsQuery query
    if ftsQuery = "" then []
    else
      match ftsEngine ftsQuery limit with
      | Except.error _ => []
      | Except.ok rows =>
          if rows.length = 0 then []
          else
            let chunkIds := rows.map Prod.fst
            let chunkMap := (storeChunks.filter fun chunk =>
              chunkIds.contains chunk.chunkId).foldl
              (fun acc chunk => mapSet acc chunk.chunkId chunk) []
            rows.filterMap fun row =>
              match mapGet chunkMap row.1 with
              | none => none
              | some chunk =>
                  match filters with
                  | some fs =>
                      if matchesFilters chunk fs then some (chunk, 1 / (row.2 + 1))
                      else none
                  | none => some (chunk, 1 / (row.2 + 1))

/-! Store and indexer (SqliteVectorStore from src/core/store/index.ts
and VaultIndexer from src/core/indexer.ts).  The chunks and files tables
are modelled directly; the chunk_fts table mirrors the chunks table
write-for-write inside the same transaction and carries no state of its
own that any claim observes, so it is not duplicated here.  The
structure-of-arrays detail of SQL rows is collapsed into ChunkRecord
values whose embedding is present (embedding_json is NOT NULL). -/

/-- A row of the files table. -/
structure FileState where
  mtime : ℚ
  chunkCount : Nat
  contentHash : String
deriving DecidableEq, Repr

/-- The persistent store: the chunks table keyed by chunk_id and the
files table keyed by path. -/
structure StoreState where
  chunks : List ChunkRecord
  files : List (String × FileState)
deriving DecidableEq, Repr

/-- loadChunksByFile: every stored chunk of one path. -/
def loadChunksByFile (σ : StoreState) (filePath : String) : List ChunkRecord :=
  σ.chunks.filter fun chunk => chunk.filePath = filePath

/-- Lookup of a stored chunk by primary key. -/
def findStoredChunk (chunks : List ChunkRecord) (chunkId : String) :
    Option ChunkRecord :=
  chunks.find? fun chunk => chunk.chunkId = chunkId

/-- Insert-or-replace of one chunk row by primary key. -/
def upsertChunkRow (chunks : List ChunkRecord) (chunk : ChunkRecord) :
    List ChunkRecord :=
  if chunks.any fun c => c.chunkId = chunk.chunkId then
    chunks.map fun c => if c.chunkId = chunk.chunkId then chunk else c
  else chunks ++ [chunk]

/-- Maximum of a non-empty rational list (Math.max over mtimes). -/
def listMaxQ : List ℚ → ℚ
  | [] => 0
  | x :: xs => xs.foldl max x

/-- upsertChunks from SqliteVectorStore: insert or replace every chunk
by chunk_id, then recompute the file state of every path that appears in
the batch (mtime = max chunk mtime, chunkCount, contentHash = joined
chunk hashes), all in one transaction. -/
def upsertChunks (σ : StoreState) (batch : List ChunkRecord) : StoreState :=
  let chunks := batch.foldl upsertChunkRow σ.chunks
  let paths := (batch.map fun chunk => chunk.filePath).dedup
  let files := paths.foldl
    (fun files path =>
      let fileChunks := batch.filter fun chunk => chunk.filePath = path
      mapSet files path
        { mtime := listMaxQ (fileChunks.map fun chunk => chunk.mtime)
          chunkCount := fileChunks.length
          contentHash := String.intercalate ":"
            (fileChunks.map fun chunk => chunk.contentHash) })
    σ.files
  { chunks := chunks, files := files }

/-- deleteChunksByIds: remove the rows of the listed primary keys. -/
def deleteChunksByIds (σ : StoreState) (chunkIds : List String) : StoreState :=
  { σ with chunks :=
      σ.chunks.filter fun chunk => ¬ chunkIds.contains chunk.chunkId }

/-- deleteChunksForFile: cascade delete of one path and its file row. -/
def deleteChunksForFile (σ : StoreState) (filePath : String) : StoreState :=
  { chunks := σ.chunks.filter fun chunk => ¬ chunk.filePath = filePath
    files := σ.files.filter fun entry => ¬ entry.1 = filePath }

/-- listIndexedPaths. -/
def listIndexedPaths (σ : StoreState) : List String :=
  σ.files.map Prod.fst

/-! Indexer (VaultIndexer from src/core/indexer.ts).  The corpus walk is
a list of files (path, mtime, markdown); the chunker is passed as a
function argument exactly as the indexer calls chunkMarkdown, and the
embedding adapter is a function from payloads (id, text) to either
results (id, vector) or a thrown error.  A trace records which files
were read and chunked and which payload batches reached the adapter. -/

/-- A markdown file observed by the corpus walk. -/
structure VaultFile where
  relative : String
  mtime : ℚ
  markdown : String
deriving DecidableEq, Repr

/-- IndexStats from src/core/indexer.ts. -/
structure IndexStats where
  processed : Nat
  skipped : Nat
  removed : Nat
  chunksUpserted : Nat
  chunksDeleted : Nat
deriving DecidableEq, Repr

/-- Observable effects of a run: file reads, chunked files, and the
payload batches handed to the embedding adapter. -/
structure IndexTrace where
  reads : List String
  chunked : List String
  embedBatches : List (List (String × String))
deriving DecidableEq, Repr

/-- The errors a run can raise: a propagated adapter failure or the
missing-embedding guard of persistFile. -/
inductive IndexError where
  | embedFailed (message : String)
  | missingEmbedding (chunkId : String)
deriving DecidableEq, Repr

/-- The adapter contract: payloads (id, text) to results (id, vector),
or a thrown error. -/
def EmbedFn : Type :=
  List (String × String) → Except String (List (String × List ℚ))

/-- OllamaEmbedder.embedWithRetries: up to three attempts; a success
returns immediately, the error of the final attempt is rethrown. -/
def embedWithRetries (attempt : Nat → Except String (List (List ℚ))) :
    Except String (List (List ℚ)) :=
  match attempt 1 with
  | Except.ok vectors => Except.ok vectors
  | Except.error _ =>
      match attempt 2 with
      | Except.ok vectors => Except.ok vectors
      | Except.error _ => attempt 3

/-- The diff loop of VaultIndexer.persistFile: a chunk whose stored
contentHash matches reuses the stored embedding, everything else is
queued for embedding.  Returns (nextChunks, toEmbed), both in document
order as the push-based loop of the source produces them. -/
def diffChunks (existing : List ChunkRecord) :
    List ChunkRecord → List ChunkRecord × List ChunkRecord
  | [] => ([], [])
  | chunk :: rest =>
      let next := diffChunks existing rest
      match findStoredChunk existing chunk.chunkId with
      | some prior =>
          if prior.contentHash = chunk.contentHash then
            ({ chunk with embedding := prior.embedding } :: next.1, next.2)
          else (next.1, chunk :: next.2)
      | none => (next.1, chunk :: next.2)

/-- new Map(embeddings.map(e => [e.id, e.embedding])): last write wins. -/
def embeddingMapOf (results : List (String × List ℚ)) :
    List (String × List ℚ) :=
  results.foldl (fun acc result => mapSet acc result.1 result.2) []

/-- The tail of persistFile shared by the embed and no-embed paths:
compute and delete the stale chunk ids, run the missing-embedding guard,
and upsert the final chunk set.  The guard runs after the deletion, as
in the source. -/
def persistFileFinish (σ : StoreState) (relativePath : String)
    (chunks nextChunks : List ChunkRecord)
    (batches : List (List (String × String))) :
    Except IndexError (StoreState × Nat × List (List (String × String))) :=
  let existing := loadChunksByFile σ relativePath
  let staleChunkIds := (existing.map fun chunk => chunk.chunkId).filter
    fun chunkId => ¬ chunks.any fun chunk => chunk.chunkId = chunkId
  let σ' := if 0 < staleChunkIds.length then deleteChunksByIds σ staleChunkIds
    else σ
  match nextChunks.find? fun chunk => chunk.embedding = none with
  | some chunk => Except.error (IndexError.missingEmbedding chunk.chunkId)
  | none =>
      Except.ok (upsertChunks σ' nextChunks, staleChunkIds.length, batches)

/-- VaultIndexer.persistFile: diff against the stored chunk set, embed
only the queued chunks, merge the returned vectors back in (a queued
chunk whose id is absent from the adapter result is skipped), delete
stale chunks and upsert the rest. -/
def persistFile (embedFn : EmbedFn) (σ : StoreState) (relativePath : String)
    (chunks : List ChunkRecord) :
    Except IndexError (StoreState × Nat × List (List (String × String))) :=
  let diffed := diffChunks (loadChunksByFile σ relativePath) chunks
  let nextChunks := diffed.1
  let toEmbed := diffed.2
  if toEmbed.length = 0 then
    persistFileFinish σ relativePath chunks nextChunks []
  else
    let payloads := toEmbed.map fun chunk =>
      (chunk.chunkId, chunk.representation)
    match embedFn payloads with
    | Except.error message => Except.error (IndexError.embedFailed message)
    | Except.ok results =>
        let embeddingMap := embeddingMapOf results
        let withEmbeddings := toEmbed.filterMap fun chunk =>
          (mapGet embeddingMap chunk.chunkId).map fun vector =>
            { chunk with embedding := some vector }
        persistFileFinish σ relativePath chunks (nextChunks ++ withEmbeddings)
          [payloads]

/-- The per-file step of VaultIndexer.run: skip when the stored mtime
equals the current one, otherwise read, chunk and persist. -/
def processFile (chunkFn : VaultFile → List ChunkRecord) (embedFn : EmbedFn)
    (σ : StoreState) (stats : IndexStats) (trace : IndexTrace)
    (file : VaultFile) :
    Except IndexError (StoreState × IndexStats × IndexTrace) :=
  let skipFile : Bool := match mapGet σ.files file.relative with
    | some previous => decide (previous.mtime = file.mtime)
    | none => false
  if skipFile then
    Except.ok (σ, { stats with skipped := stats.skipped + 1 }, trace)
  else
    let trace := { trace with
      reads := trace.reads ++ [file.relative]
      chunked := trace.chunked ++ [file.relative] }
    let chunks := chunkFn file
    match persistFile embedFn σ file.relative chunks with
    | Except.error e => Except.error e
    | Except.ok (σ', deletedChunks, batches) =>
        Except.ok (σ',
          { stats with
            processed := stats.processed + 1
            chunksUpserted := stats.chunksUpserted + chunks.length
            chunksDeleted := stats.chunksDeleted + deletedChunks },
          { trace with embedBatches := trace.embedBatches ++ batches })

/-- The file loop of VaultIndexer.run; an error from any file aborts the
fold (the loop body has no catch). -/
def runFiles (chunkFn : VaultFile → List ChunkRecord) (embedFn : EmbedFn)
    (files : List VaultFile) (σ : StoreState) (stats : IndexStats)
    (trace : IndexTrace) :
    Except IndexError (StoreState × IndexStats × IndexTrace) :=
  match files with
  | [] => Except.ok (σ, stats, trace)
  | file :: rest =>
      match processFile chunkFn embedFn σ stats trace file with
      | Except.error e => Except.error e
      | Except.ok (σ', stats', trace') =>
          runFiles chunkFn embedFn rest σ' stats' trace'

/-- One iteration of the removal loop of VaultIndexer.run: count the
chunks of the vanished path, cascade-delete it, bump the stats. -/
def reconcileStep (acc : StoreState × IndexStats) (path : String) :
    StoreState × IndexStats :=
  let chunkCount := (loadChunksByFile acc.1 path).length
  (deleteChunksForFile acc.1 path,
    { acc.2 with
      removed := acc.2.removed + 1
      chunksDeleted := acc.2.chunksDeleted + chunkCount })

/-- The deletion-reconciliation phase of VaultIndexer.run: every tracked
path not observed by the walk is removed with its chunks. -/
def reconcileRemovals (σ : StoreState) (seenPaths : List String)
    (stats : IndexStats) : StoreState × IndexStats :=
  let removedPaths := (listIndexedPaths σ).filter
    fun path => ¬ seenPaths.contains path
  removedPaths.foldl reconcileStep (σ, stats)

/-- VaultIndexer.run: walk the corpus, process each file, then reconcile
removals (seenPaths accumulates to exactly the walked paths). -/
def runIndexer (chunkFn : VaultFile → List ChunkRecord) (embedFn : EmbedFn)
    (files : List VaultFile) (σ : StoreState) :
    Except IndexError (StoreState × IndexStats × IndexTrace) :=
  match runFiles chunkFn embedFn files σ
    { processed := 0, skipped := 0, removed := 0, chunksUpserted := 0,
      chunksDeleted := 0 }
    { reads := [], chunked := [], embedBatches := [] } with
  | Except.error e => Except.error e
  | Except.ok (σ', stats, trace) =>
      let reconciled := reconcileRemovals σ'
        (files.map fun file => file.relative) stats
      Except.ok (reconciled.1, reconciled.2, trace)

/-! Generic lemmas about the association-list maps and the stable sort. -/

theorem mapGet_mapSet_self (m : List (String × β)) (k : String) (v : β) :
    mapGet (mapSet m k v) k = some v := by
  induction m with
  | nil => simp [mapSet, mapGet]
  | cons p rest ih =>
      by_cases h : p.1 = k
      · simp [mapSet, mapGet, h]
      · simp [mapSet, mapGet, h, ih]

theorem mapGet_mapSet_ne (m : List (String × β)) (k k' : String) (v : β)
    (h : k' ≠ k) : mapGet (mapSet m k v) k' = mapGet m k' := by
  have hne : ¬ k = k' := fun hk => h (Eq.symm hk)
  induction m with
  | nil => simp [mapSet, mapGet, hne]
  | cons p rest ih =>
      by_cases hp : p.1 = k
      · have : ¬ p.1 = k' := by
          rw [hp]
          exact hne
        simp [mapSet, mapGet, hp, this, hne]
      · simp only [mapSet, if_neg hp]
        by_cases hk' : p.1 = k'
        · simp [mapGet, hk']
        · simp [mapGet, hk', ih]

theorem mapSet_keys (m : List (String × β)) (k : String) (v : β) :
    (mapSet m k v).map Prod.fst =
      if k ∈ m.map Prod.fst then m.map Prod.fst else m.map Prod.fst ++ [k] := by
  induction m with
  | nil => simp [mapSet]
  | cons p rest ih =>
      by_cases h : p.1 = k
      · simp [mapSet, h]
      · have hkp : ¬ k = p.1 := fun hx => h (Eq.symm hx)
        simp only [mapSet, if_neg h, List.map_cons, ih]
        by_cases hk : k ∈ rest.map Prod.fst
        · simp [hk, hkp]
        · simp [hk, hkp]

theorem mapSet_keys_nodup (m : List (String × β)) (k : String) (v : β)
    (h : (m.map Prod.fst).Nodup) : ((mapSet m k v).map Prod.fst).Nodup := by
  rw [mapSet_keys]
  by_cases hk : k ∈ m.map Prod.fst
  · simpa [hk] using h
  · rw [if_neg hk]
    refine List.Nodup.append h (List.nodup_singleton k) ?_
    intro x hx hx'
    simp only [List.mem_singleton] at hx'
    exact hk (hx' ▸ hx)

theorem mapGet_isSome_of_mem (m : List (String × β)) (k : String)
    (h : k ∈ m.map Prod.fst) : (mapGet m k).isSome = true := by
  induction m with
  | nil => simp at h
  | cons p rest ih =>
      by_cases hp : p.1 = k
      · simp [mapGet, hp]
      · simp only [List.map_cons, List.mem_cons] at h
        rcases h with h | h
        · exact absurd (Eq.symm h) hp
        · simp [mapGet, hp, ih h]

theorem mem_of_mapGet_isSome (m : List (String × β)) (k : String)
    (h : (mapGet m k).isSome = true) : k ∈ m.map Prod.fst := by
  induction m with
  | nil => simp [mapGet] at h
  | cons p rest ih =>
      by_cases hp : p.1 = k
      · simp [Eq.symm hp]
      · simp only [mapGet, if_neg hp] at h
        simpa using Or.inr (ih h)

theorem insertDescBy_perm (f : α → ℚ) (a : α) (l : List α) :
    List.Perm (insertDescBy f a l) (a :: l) := by
  induction l with
  | nil => simp [insertDescBy]
  | cons b rest ih =>
      by_cases h : f a < f b
      · simp only [insertDescBy, if_pos h]
        exact (ih.cons b).trans (List.Perm.swap a b rest)
      · simp [insertDescBy, if_neg h]

theorem sortByDesc_perm (f : α → ℚ) (l : List α) :
    List.Perm (sortByDesc f l) l := by
  induction l with
  | nil => simp [sortByDesc]
  | cons a rest ih =>
      exact (insertDescBy_perm f a (sortByDesc f rest)).trans (ih.cons a)

theorem insertDescBy_sorted (f : α → ℚ) (a : α) (l : List α)
    (h : l.Pairwise fun x y => f y ≤ f x) :
    (insertDescBy f a l).Pairwise fun x y => f y ≤ f x := by
  induction l with
  | nil => simp [insertDescBy]
  | cons b rest ih =>
      rcases List.pairwise_cons.mp h with ⟨hb, hrest⟩
      by_cases hab : f a < f b
      · simp only [insertDescBy, if_pos hab]
        refine List.pairwise_cons.mpr ⟨?_, ih hrest⟩
        intro y hy
        rcases List.mem_cons.mp ((insertDescBy_perm f a rest).mem_iff.mp hy)
          with hy | hy
        · exact hy ▸ hab.le
        · exact hb y hy
      · simp only [insertDescBy, if_neg hab]
        refine List.pairwise_cons.mpr ⟨?_, h⟩
        intro y hy
        rcases List.mem_cons.mp hy with hy | hy
        · exact hy ▸ le_of_not_lt hab
        · exact le_trans (hb y hy) (le_of_not_lt hab)

theorem sortByDesc_sorted (f : α → ℚ) (l : List α) :
    (sortByDesc f l).Pairwise fun x y => f y ≤ f x := by
  induction l with
  | nil => simp [sortByDesc]
  | cons a rest ih => exact insertDescBy_sorted f a (sortByDesc f rest) ih

/-- In a descending-sorted list a strictly greater key sits strictly
earlier. -/
theorem sorted_desc_lt_of_gt (f : α → ℚ) (l : List α)
    (h : l.Pairwise fun x y => f y ≤ f x) (i j : Nat) (hi : i < l.length)
    (hj : j < l.length) (hgt : f (l.get ⟨j, hj⟩) < f (l.get ⟨i, hi⟩)) :
    i < j := by
  by_contra hij
  rcases Nat.lt_or_ge j i with hji | hji
  · have := List.pairwise_iff_get.mp h ⟨j, hj⟩ ⟨i, hi⟩ hji
    exact absurd hgt (not_lt.mpr this)
  · have : i = j := Nat.le_antisymm hji (Nat.le_of_not_lt hij)
    subst this
    exact lt_irrefl _ hgt

/-- The head of the stable descending sort is the first maximum of the
input: it attains the maximum key and every element strictly before its
original position has a strictly smaller key. -/
theorem sortByDesc_head_firstMax (f : α → ℚ) (l : List α) (x : α)
    (rest : List α) (h : sortByDesc f l = x :: rest) :
    (∀ y ∈ l, f y ≤ f x) ∧
      ∃ i : Fin l.length, l.get i = x ∧
        ∀ j : Fin l.length, (j : Nat) < (i : Nat) → f (l.get j) < f x := by
  induction l generalizing x rest with
  | nil => simp [sortByDesc] at h
  | cons a tail ih =>
      simp only [sortByDesc] at h
      rcases htail : sortByDesc f tail with _ | ⟨b, brest⟩
      · have : tail = [] := by
          have := sortByDesc_perm f tail
          rw [htail] at this
          exact this.symm.eq_nil
        subst this
        simp only [htail, insertDescBy] at h
        rcases h with ⟨rfl, rfl⟩
        refine ⟨?_, ⟨0, by simp⟩, by simp, ?_⟩
        · intro y hy
          simp at hy
          exact hy ▸ le_refl _
        · intro j hj
          simp at hj
      · rw [htail] at h
        rcases ih b brest htail with ⟨hmax, i, hget, hfirst⟩
        simp only [insertDescBy] at h
        by_cases hab : f a < f b
        · rw [if_pos hab] at h
          rcases List.cons.injEq .. ▸ h with ⟨rfl, rfl⟩
          refine ⟨?_, ⟨(i : Nat) + 1, by
            have hi := i.isLt
            simp only [List.length_cons]
            omega⟩, by simpa using hget, ?_⟩
          · intro y hy
            rcases List.mem_cons.mp hy with hy | hy
            · exact hy ▸ hab.le
            · exact hmax y hy
          · intro j hj
            match j with
            | ⟨0, _⟩ => simpa using hab
            | ⟨jj + 1, hjj⟩ =>
                have hlt : jj < (i : Nat) := by simpa using hj
                simpa using hfirst ⟨jj, by simpa using hjj⟩ hlt
        · rw [if_neg hab] at h
          rcases List.cons.injEq .. ▸ h with ⟨rfl, rfl⟩
          refine ⟨?_, ⟨0, by simp⟩, by simp, ?_⟩
          · intro y hy
            rcases List.mem_cons.mp hy with hy | hy
            · exact hy ▸ le_refl _
            · exact le_trans (hmax y hy) (le_of_not_lt hab)
          · intro j hj
            simp at hj

/-! Claim C7: chunk-type resolution. -/

theorem chunkTypeOrder_get_index (u : ChunkType)
    (h : chunkTypeOrderIndex u < chunkTypeOrder.length) :
    chunkTypeOrder.get ⟨chunkTypeOrderIndex u, h⟩ = u := by
  cases u <;> rfl

theorem chunkTypeOrderIndex_lt_length (u : ChunkType) :
    chunkTypeOrderIndex u < chunkTypeOrder.length := by
  cases u <;> decide

theorem chunkTypeOrder_index_of_get (i : Nat)
    (h : i < chunkTypeOrder.length) (u : ChunkType)
    (hget : chunkTypeOrder.get ⟨i, h⟩ = u) : i = chunkTypeOrderIndex u := by
  have h6 : i < 6 := h
  interval_cases i <;> cases u <;>
    first
      | rfl
      | exact ChunkType.noConfusion hget

/-- C7 (amended): the resolved chunkType always attains the maximal
total token contribution, and among the types attaining the maximum it
is the one earliest in the insertion order text, code, table, callout,
list, quote of the counts record; so a tie that includes text resolves
to text, but a tie among other types resolves to the earliest of those
types rather than to text. -/
theorem resolveChunkType_firstMax (blocks : List MarkdownBlock) :
    (∀ u, chunkTypeCounts blocks u ≤
        chunkTypeCounts blocks (resolveChunkType blocks)) ∧
    (∀ u, chunkTypeOrderIndex u < chunkTypeOrderIndex (resolveChunkType blocks) →
        chunkTypeCounts blocks u <
          chunkTypeCounts blocks (resolveChunkType blocks)) := by
  rcases hsort : sortByDesc (fun e => ((e.2 : ℚ))) (chunkTypeEntries blocks)
    with _ | ⟨x, srest⟩
  · have hperm := sortByDesc_perm (fun e : ChunkType × Nat => ((e.2 : ℚ)))
      (chunkTypeEntries blocks)
    rw [hsort] at hperm
    have := hperm.symm.eq_nil
    simp [chunkTypeEntries, chunkTypeOrder] at this
  · rcases sortByDesc_head_firstMax _ _ _ _ hsort with ⟨hmax, i, hget, hfirst⟩
    have hres : resolveChunkType blocks = x.1 := by
      simp [resolveChunkType, hsort]
    have hlen : (chunkTypeEntries blocks).length = chunkTypeOrder.length := by
      simp [chunkTypeEntries]
    have hi' : (i : Nat) < chunkTypeOrder.length := by
      rw [← hlen]
      exact i.isLt
    have hxval : (chunkTypeEntries blocks).get i =
        (chunkTypeOrder.get ⟨i, hi'⟩,
          chunkTypeCounts blocks (chunkTypeOrder.get ⟨i, hi'⟩)) := by
      simp [chunkTypeEntries, List.get_map]
    have hx1 : x.1 = chunkTypeOrder.get ⟨i, hi'⟩ := by
      rw [← hget, hxval]
    have hx2 : x.2 = chunkTypeCounts blocks x.1 := by
      rw [← hget, hxval]
    constructor
    · intro u
      have hmem : (u, chunkTypeCounts blocks u) ∈ chunkTypeEntries blocks := by
        cases u <;> simp [chunkTypeEntries, chunkTypeOrder]
      have := hmax _ hmem
      rw [hres, ← hx2]
      exact_mod_cast this
    · intro u hu
      rw [hres] at hu ⊢
      have hidx : (i : Nat) = chunkTypeOrderIndex x.1 :=
        chunkTypeOrder_index_of_get _ hi' _ (Eq.symm hx1)
      have hju : chunkTypeOrderIndex u < (chunkTypeEntries blocks).length := by
        rw [hlen]
        exact chunkTypeOrderIndex_lt_length u
      have hjval : (chunkTypeEntries blocks).get ⟨chunkTypeOrderIndex u, hju⟩ =
          (chunkTypeOrder.get
            ⟨chunkTypeOrderIndex u, chunkTypeOrderIndex_lt_length u⟩,
           chunkTypeCounts blocks (chunkTypeOrder.get
            ⟨chunkTypeOrderIndex u, chunkTypeOrderIndex_lt_length u⟩)) := by
        simp [chunkTypeEntries, List.get_map]
      have hjget : (chunkTypeEntries blocks).get ⟨chunkTypeOrderIndex u, hju⟩ =
          (u, chunkTypeCounts blocks u) := by
        rw [hjval, chunkTypeOrder_get_index u (chunkTypeOrderIndex_lt_length u)]
      have hlt : chunkTypeOrderIndex u < (i : Nat) := by
        rw [hidx]
        exact hu
      have := hfirst ⟨chunkTypeOrderIndex u, hju⟩ hlt
      rw [hjget] at this
      rw [← hx2]
      exact_mod_cast this

/-- A code block and a table block used by the C7 counterexample. -/
def c7CodeBlock : MarkdownBlock :=
  { type := MarkdownBlockType.code, depth := none, text := "const a = 1",
    tokens := 5, strongBoundary := false }

/-- Table block of the C7 counterexample. -/
def c7TableBlock : MarkdownBlock :=
  { type := MarkdownBlockType.table, depth := none, text := "| a | b |",
    tokens := 5, strongBoundary := false }

/-- C7 (counterexample): in a chunk whose code and table blocks tie for
the largest token contribution, the claim requires chunkType text, but
the code resolves the tie by record insertion order and returns code. -/
theorem resolveChunkType_tie_not_text :
    chunkTypeCounts [c7CodeBlock, c7TableBlock] ChunkType.code = 5 ∧
    chunkTypeCounts [c7CodeBlock, c7TableBlock] ChunkType.table = 5 ∧
    (∀ u ∈ chunkTypeOrder, chunkTypeCounts [c7CodeBlock, c7TableBlock] u ≤ 5) ∧
    resolveChunkType [c7CodeBlock, c7TableBlock] = ChunkType.code ∧
    resolveChunkType [c7CodeBlock, c7TableBlock] ≠ ChunkType.text := by
  decide

/-! Claim C8: the recency term of the vector-scoring path. -/

/-- C8 (counterexample): for weight 1, now 0 and mtime two days ahead
the age is -2 days, the code returns the full weight 1, but the claimed
formula boost / (1 + ageInDays) yields -1, and the term is not zero
either although positive-weight cases are not covered by the claimed
zero clause; hence the recency term does not always equal the claimed
formula. -/
theorem recencyBoost_not_formula :
    recencyBoost 0 172800000 1 = 1 ∧
    (1 : ℚ) / (1 + ((0 - 172800000) / (1000 * 60 * 60 * 24) : ℚ)) = -1 ∧
    recencyBoost 0 172800000 1 ≠
      (1 : ℚ) / (1 + ((0 - 172800000) / (1000 * 60 * 60 * 24) : ℚ)) := by
  refine ⟨by norm_num [recencyBoost], by norm_num, by norm_num [recencyBoost]⟩

/-- C8 (amended): every vector candidate score is the dot product plus
the recency term recencyBoost now mtime weight; that term is 0 whenever
the weight is non-positive, equals the full weight (not 0) whenever the
weight is positive and the age is non-positive (over the rationals the
non-finite-age guard of the source cannot fire, and the source returns
the full weight for it as well), and equals weight / (1 + ageDays) only
for a positive age. -/
theorem scoreVectorCandidates_recency (allChunks : List ChunkRecord)
    (now weight : ℚ) (queryEmbedding : List ℚ) (limit : Nat)
    (filters : Option RetrievalFilters) (entry : RankedChunk)
    (hmem : entry ∈ scoreVectorCandidates allChunks now weight queryEmbedding
      limit filters) :
    entry.score = dot (entry.chunk.embedding.getD []) queryEmbedding +
      recencyBoost now entry.chunk.mtime weight ∧
    (weight ≤ 0 → recencyBoost now entry.chunk.mtime weight = 0) ∧
    (0 < weight → (now - entry.chunk.mtime) / (1000 * 60 * 60 * 24) ≤ 0 →
      recencyBoost now entry.chunk.mtime weight = weight) ∧
    (0 < weight → 0 < (now - entry.chunk.mtime) / (1000 * 60 * 60 * 24) →
      recencyBoost now entry.chunk.mtime weight =
        weight / (1 + (now - entry.chunk.mtime) / (1000 * 60 * 60 * 24))) := by
  refine ⟨?_, ?_, ?_, ?_⟩
  · rcases List.mem_map.mp
      ((sortByDesc_perm (fun e : RankedChunk => e.score) _).mem_iff.mp
        (List.mem_of_mem_take hmem)) with ⟨chunk, _, hchunk⟩
    rw [← hchunk]
  · intro hw
    simp [recencyBoost, hw]
  · intro hw hage
    rw [recencyBoost, if_neg (not_le.mpr hw)]
    simp only []
    rw [if_pos hage]
  · intro hw hage
    rw [recencyBoost, if_neg (not_le.mpr hw)]
    simp only []
    rw [if_neg (not_le.mpr hage)]

/-! Claim C5: lexical-search robustness. -/

theorem ftsTokensGo_all_nontoken (chars : List Char)
    (h : ∀ c ∈ chars, isFtsTokenChar c = false) : ftsTokensGo chars "" = [] := by
  induction chars with
  | nil => simp [ftsTokensGo]
  | cons c rest ih =>
      have hc := h c (List.mem_cons_self c rest)
      simp only [ftsTokensGo, hc, Bool.false_eq_true, if_false, if_pos rfl]
      exact ih fun d hd => h d (List.mem_cons_of_mem c hd)

/-- C5: lexicalSearch is total by construction (it returns a list for
every input rather than raising), and it returns the empty result set
both for a query with no alphanumeric-or-underscore characters (for
example a query of punctuation only, whatever the whitespace) and
whenever the FTS engine rejects the generated MATCH query with an
error. -/
theorem lexicalSearch_robust
    (ftsEngine : String → Nat → Except String (List (String × ℚ)))
    (storeChunks : List ChunkRecord) (query : String) (limit : Nat)
    (filters : Option RetrievalFilters) :
    ((∀ c ∈ query.data, isFtsTokenChar c = false) →
      lexicalSearch ftsEngine storeChunks query limit filters = []) ∧
    ((∀ s n, ∃ message, ftsEngine s n = Except.error message) →
      lexicalSearch ftsEngine storeChunks query limit filters = []) := by
  constructor
  · intro h
    by_cases htrim : trimWhitespace query = ""
    · simp [lexicalSearch, htrim]
    · have htok : ftsTokens query = [] := ftsTokensGo_all_nontoken query.data h
      simp [lexicalSearch, htrim, toFtsQuery, htok]
  · intro h
    by_cases htrim : trimWhitespace query = ""
    · simp [lexicalSearch, htrim]
    · by_cases hq : toFtsQuery query = ""
      · simp [lexicalSearch, htrim, hq]
      · rcases h (toFtsQuery query) limit with ⟨message, hmsg⟩
        simp [lexicalSearch, htrim, hq, hmsg]

/-- C5 (witness): a query of punctuation only, against an engine that
always reports a parse error, satisfies both hypotheses and produces
the empty result set. -/
theorem lexicalSearch_robust_witness :
    (∀ c ∈ ("?!." : String).data, isFtsTokenChar c = false) ∧
    lexicalSearch (fun _ _ => Except.error "fts5 syntax error") [] "?!." 7
      none = [] := by
  refine ⟨by decide, ?_⟩
  exact (lexicalSearch_robust (fun _ _ => Except.error "fts5 syntax error")
    [] "?!." 7 none).1 (by decide)

/-! Claim C6: the merge pass of the chunker. -/

/-- C6 (amended): for an adjacent pair of drafts the merge pass merges
them exactly when the later draft is under the minimum-token threshold,
the heading paths agree, and BOTH drafts were produced by a
size-triggered flush (mergeable); a draft flushed by a heading, by a
strong boundary, or by the end of the document is never merged even
though the end of the document is not a structural boundary. -/
theorem mergeSmallChunks_pair (d1 d2 : ChunkDraft) (minTokens : Nat) :
    mergeSmallChunks [d1, d2] minTokens =
      if d2.tokens < minTokens ∧ d1.mergeable = true ∧ d2.mergeable = true ∧
          sameHeadingPath d1.headingPath d2.headingPath = true then
        [{ d1 with
            text := trimWhitespace (d1.text ++ "\n\n" ++ d2.text)
            tokens := approximateTokens (trimWhitespace (d1.text ++ "\n\n" ++ d2.text)) }]
      else [d1, d2] := by
  by_cases h : d2.tokens < minTokens ∧ d1.mergeable = true ∧
      d2.mergeable = true ∧
      sameHeadingPath d1.headingPath d2.headingPath = true
  · simp [mergeSmallChunks, mergeSmallChunksGo, h]
  · simp [mergeSmallChunks, mergeSmallChunksGo, h]

/-- First paragraph block of the C6 counterexample (3 tokens, reaching
the target size so the first draft is flushed by size). -/
def c6Paragraph1 : MarkdownBlock :=
  { type := MarkdownBlockType.paragraph, depth := none,
    text := "alpha beta gamma", tokens := 3, strongBoundary := false }

/-- Second paragraph block of the C6 counterexample (1 token, flushed
only by the end of the document). -/
def c6Paragraph2 : MarkdownBlock :=
  { type := MarkdownBlockType.paragraph, depth := none, text := "delta",
    tokens := 1, strongBoundary := false }

/-- Chunking configuration of the C6 counterexample. -/
def c6Config : ChunkingConfiguration :=
  { target_tokens := 3, max_tokens := 100, min_tokens := 10,
    overlap_tokens := 0, merge_small_chunks := true }

/-- C6 (counterexample): a document of two paragraphs with no heading
and no strong-boundary block produces two adjacent drafts with the same
headingPath whose later draft (1 token) is far under min_tokens = 10;
neither draft came from a structural boundary (the first was flushed by
size, the second by the end of input), yet the merge pass leaves both
drafts unmerged because the end-flushed draft is not mergeable. -/
theorem mergeSmallChunks_fragment_survives :
    (∀ b ∈ [c6Paragraph1, c6Paragraph2],
        b.type ≠ MarkdownBlockType.heading ∧ b.strongBoundary = false) ∧
    (buildChunkDrafts [c6Paragraph1, c6Paragraph2] c6Config "Note").map
        (fun d => (d.headingPath, d.tokens, d.mergeable)) =
      [(["Note"], 3, true), (["Note"], 1, false)] ∧
    (1 : Nat) < c6Config.min_tokens ∧
    (mergeSmallChunks
        (buildChunkDrafts [c6Paragraph1, c6Paragraph2] c6Config "Note")
        c6Config.min_tokens).length = 2 := by
  decide

/-! Claim C4: fusion monotonicity. -/

theorem mem_of_mapGet_eq_some (m : List (String × β)) (k : String) (v : β)
    (h : mapGet m k = some v) : (k, v) ∈ m := by
  induction m with
  | nil => simp [mapGet] at h
  | cons p rest ih =>
      by_cases hp : p.1 = k
      · simp only [mapGet, if_pos hp, Option.some.injEq] at h
        have : p = (k, v) := by
          rcases p with ⟨p1, p2⟩
          simp only at hp h
          rw [hp, h]
        exact this ▸ List.mem_cons_self p rest
      · simp only [mapGet, if_neg hp] at h
        exact List.mem_cons_of_mem p (ih h)

theorem mapGet_eq_some_of_mem_nodup (m : List (String × β)) (k : String)
    (v : β) (hn : (m.map Prod.fst).Nodup) (h : (k, v) ∈ m) :
    mapGet m k = some v := by
  induction m with
  | nil => simp at h
  | cons p rest ih =>
      rcases List.mem_cons.mp h with h | h
      · rw [← h]
        simp [mapGet]
      · have hp : ¬ p.1 = k := by
          intro hk
          have : k ∈ rest.map Prod.fst :=
            List.mem_map.mpr ⟨(k, v), h, rfl⟩
          rw [List.map_cons, List.nodup_cons] at hn
          exact hn.1 (hk ▸ this)
        simp only [mapGet, if_neg hp]
        rw [List.map_cons, List.nodup_cons] at hn
        exact ih hn.2 h

theorem rankContribSum_cons (w : ℚ) (n : Nat) (a : String)
    (rest : List String) (k : String) :
    rankContribSum w n (a :: rest) k =
      (if a = k then w / (1 + (n : ℚ)) else 0) +
        rankContribSum w (n + 1) rest k := by
  by_cases ha : a = k
  · simp [rankContribSum, List.enumFrom_cons, List.filter_cons, ha]
  · simp [rankContribSum, List.enumFrom_cons, List.filter_cons, ha]

theorem sumContrib_not_mem (w : ℚ) (n : Nat) (ids : List String) (k : String)
    (h : k ∉ ids) : rankContribSum w n ids k = 0 := by
  induction ids generalizing n with
  | nil => simp [rankContribSum]
  | cons a rest ih =>
      have ha : ¬ a = k := fun hk => h (hk ▸ List.mem_cons_self a rest)
      have hk : k ∉ rest := fun hk => h (List.mem_cons_of_mem a hk)
      rw [rankContribSum_cons, if_neg ha, ih (n + 1) hk]
      ring

theorem sumContrib_nonneg (w : ℚ) (n : Nat) (ids : List String) (k : String)
    (hw : 0 ≤ w) : 0 ≤ rankContribSum w n ids k := by
  induction ids generalizing n with
  | nil => simp [rankContribSum]
  | cons a rest ih =>
      rw [rankContribSum_cons]
      have h2 := ih (n + 1)
      by_cases ha : a = k
      · have h1 : (0 : ℚ) ≤ w / (1 + (n : ℚ)) := by positivity
        rw [if_pos ha]
        linarith
      · rw [if_neg ha]
        linarith

theorem sumContrib_head (w : ℚ) (n : Nat) (k : String) (rest : List String)
    (h : k ∉ rest) : rankContribSum w n (k :: rest) k = w / (1 + (n : ℚ)) := by
  rw [rankContribSum_cons, if_pos rfl, sumContrib_not_mem w (n + 1) rest k h]
  ring

theorem sumContrib_le (w : ℚ) (n : Nat) (ids : List String) (k : String)
    (hw : 0 < w) (hn : ids.Nodup) : rankContribSum w n ids k ≤ w := by
  induction ids generalizing n with
  | nil =>
      simp only [rankContribSum, List.enumFrom_nil, List.filter_nil,
        List.map_nil, List.sum_nil]
      exact hw.le
  | cons a rest ih =>
      rcases List.nodup_cons.mp hn with ⟨ha, hrest⟩
      by_cases hak : a = k
      · subst hak
        rw [sumContrib_head w n a rest ha]
        refine div_le_self hw.le ?_
        have hc : (0 : ℚ) ≤ (n : ℚ) := Nat.cast_nonneg n
        linarith
      · rw [rankContribSum_cons, if_neg hak]
        have := ih (n + 1) hrest
        linarith

theorem sumContrib_pos (w : ℚ) (n : Nat) (ids : List String) (k : String)
    (hw : 0 < w) (h : k ∈ ids) : 0 < rankContribSum w n ids k := by
  induction ids generalizing n with
  | nil => simp at h
  | cons a rest ih =>
      rw [rankContribSum_cons]
      by_cases ha : a = k
      · rw [if_pos ha]
        have h1 : (0 : ℚ) < w / (1 + (n : ℚ)) := by positivity
        have h2 := sumContrib_nonneg w (n + 1) rest k hw.le
        linarith
      · have hk : k ∈ rest := by
          rcases List.mem_cons.mp h with h | h
          · exact absurd (Eq.symm h) ha
          · exact h
        rw [if_neg ha]
        have := ih (n + 1) hk
        linarith

/-- The score map accumulated by one fusion pass, key by key. -/
theorem fuseAccumulateFrom_getD (w : ℚ) (ids : List String) (n : Nat)
    (m : List (String × ℚ)) (k : String) :
    (mapGet ((ids.enumFrom n).foldl
      (fun acc p => mapAdd acc p.2 (w / (1 + (p.1 : ℚ)))) m) k).getD 0 =
      (mapGet m k).getD 0 + rankContribSum w n ids k := by
  induction ids generalizing n m with
  | nil => simp [rankContribSum]
  | cons a rest ih =>
      simp only [List.enumFrom_cons, List.foldl_cons]
      rw [ih (n + 1) (mapAdd m a (w / (1 + (n : ℚ)))), rankContribSum_cons]
      by_cases ha : a = k
      · subst ha
        rw [mapAdd, mapGet_mapSet_self]
        simp only [Option.getD_some, eq_self_iff_true, if_true]
        ring
      · have hka : ¬ k = a := fun hk => ha (Eq.symm hk)
        rw [mapAdd, mapGet_mapSet_ne m a k _ hka, if_neg ha]
        ring

theorem fuseAccumulate_getD (w : ℚ) (ids : List String)
    (m : List (String × ℚ)) (k : String) :
    (mapGet (fuseAccumulate w ids m) k).getD 0 =
      (mapGet m k).getD 0 + rankContribSum w 0 ids k := by
  have h : ids.enum = ids.enumFrom 0 := rfl
  simpa [fuseAccumulate, h] using fuseAccumulateFrom_getD w ids 0 m k

/-- The fused score of any chunk id is its vector contribution plus its
lexical contribution. -/
theorem fusedScore_eq (vectorScores : List RankedChunk)
    (lexicalScores : List (ChunkRecord × ℚ)) (wv wl : ℚ) (k : String) :
    (mapGet (fuseAccumulate wl (lexicalScores.map fun e => e.1.chunkId)
      (fuseAccumulate wv (vectorScores.map fun e => e.chunk.chunkId) []))
        k).getD 0 =
      rankContribSum wv 0 (vectorScores.map fun e => e.chunk.chunkId) k +
        rankContribSum wl 0 (lexicalScores.map fun e => e.1.chunkId) k := by
  rw [fuseAccumulate_getD, fuseAccumulate_getD]
  simp only [mapGet, Option.getD_none]
  ring

theorem collectUniqueChunks_inv (entries : List ChunkRecord)
    (m : List (String × ChunkRecord))
    (hm : ∀ p ∈ m, (p : String × ChunkRecord).2.chunkId = p.1) :
    ∀ p ∈ collectUniqueChunks entries m,
      (p : String × ChunkRecord).2.chunkId = p.1 := by
  induction entries generalizing m with
  | nil => simpa [collectUniqueChunks] using hm
  | cons c rest ih =>
      simp only [collectUniqueChunks, List.foldl_cons]
      refine ih (mapSet m c.chunkId c) ?_
      intro p hp
      induction m with
      | nil =>
          simp only [mapSet, List.mem_singleton] at hp
          rw [hp]
      | cons q qrest ihq =>
          simp only [mapSet] at hp
          by_cases hq : q.1 = c.chunkId
          · rw [if_pos hq] at hp
            rcases List.mem_cons.mp hp with hp | hp
            · rw [hp]
              simpa using Eq.symm hq
            · exact hm p (List.mem_cons_of_mem q hp)
          · rw [if_neg hq] at hp
            rcases List.mem_cons.mp hp with hp | hp
            · rw [hp]
              exact hm q (List.mem_cons_self q qrest)
            · exact ihq (fun r hr => hm r (List.mem_cons_of_mem q hr)) hp

theorem collectUniqueChunks_isSome (entries : List ChunkRecord)
    (m : List (String × ChunkRecord)) (k : String)
    (h : k ∈ entries.map (fun c => c.chunkId) ∨ (mapGet m k).isSome = true) :
    (mapGet (collectUniqueChunks entries m) k).isSome = true := by
  induction entries generalizing m with
  | nil =>
      rcases h with h | h
      · simp at h
      · simpa [collectUniqueChunks] using h
  | cons c rest ih =>
      have hstep : collectUniqueChunks (c :: rest) m =
          collectUniqueChunks rest (mapSet m c.chunkId c) := rfl
      rw [hstep]
      by_cases hk : k = c.chunkId
      · refine ih _ (Or.inr ?_)
        rw [hk, mapGet_mapSet_self]
        rfl
      · rcases h with h | h
        · simp only [List.map_cons, List.mem_cons] at h
          rcases h with h | h
          · exact absurd h hk
          · exact ih _ (Or.inl (List.mem_map.mpr
              (by rcases List.mem_map.mp h with ⟨cc, hcc, hcc2⟩
                  exact ⟨cc, hcc, hcc2⟩)))
        · refine ih _ (Or.inr ?_)
          rw [mapGet_mapSet_ne _ _ _ _ hk]
          exact h

theorem fuseAccumulate_keys_nodup (w : ℚ) (ids : List String)
    (m : List (String × ℚ)) (h : (m.map Prod.fst).Nodup) :
    ((fuseAccumulate w ids m).map Prod.fst).Nodup := by
  rw [fuseAccumulate]
  induction ids.enum generalizing m with
  | nil => simpa using h
  | cons p rest ih =>
      simp only [List.foldl_cons]
      exact ih _ (mapSet_keys_nodup _ _ _ h)

/-- Every entry of the fused list carries the accumulated score of its
chunk id, provided the score-map keys are distinct and the chunk map
sends every key to a chunk with that id. -/
theorem fused_entry_score (scores : List (String × ℚ))
    (uniq : List (String × ChunkRecord))
    (hkeys : (scores.map Prod.fst).Nodup)
    (hinv : ∀ p ∈ uniq, (p : String × ChunkRecord).2.chunkId = p.1)
    (entry : RankedChunk)
    (hmem : entry ∈ scores.filterMap fun p =>
      (mapGet uniq p.1).map fun chunk => RankedChunk.mk chunk p.2) :
    entry.score = (mapGet scores entry.chunk.chunkId).getD 0 := by
  rcases List.mem_filterMap.mp hmem with ⟨p, hp, hmap⟩
  rcases Option.map_eq_some'.mp hmap with ⟨chunk, hget, hentry⟩
  have hid : chunk.chunkId = p.1 := hinv (p.1, chunk)
    (mem_of_mapGet_eq_some uniq p.1 chunk hget)
  have : entry.chunk.chunkId = p.1 := by
    rw [← hentry, hid]
  rw [this, mapGet_eq_some_of_mem_nodup scores p.1 p.2 hkeys (by
    simpa using hp)]
  rw [← hentry]
  rfl

/-- C4: a candidate ranked first in both lists (same chunkId at rank 0
of the vector list and of the lexical list) receives the fused score
weightVector + weightLexical, strictly above the score of any chunk id
occurring in exactly one of the two lists, so in the fused output it is
placed strictly before every entry with such an id; both entries are
present in the output. -/
theorem fuseCandidates_dual_top_first (vectorScores : List RankedChunk)
    (lexicalScores : List (ChunkRecord × ℚ)) (wv wl : ℚ)
    (x : RankedChunk) (vrest : List RankedChunk) (y : ChunkRecord × ℚ)
    (lrest : List (ChunkRecord × ℚ)) (z : String)
    (hv : 0 < wv) (hl : 0 < wl)
    (hvec : vectorScores = x :: vrest)
    (hlex : lexicalScores = y :: lrest)
    (hid : y.1.chunkId = x.chunk.chunkId)
    (hnv : (vectorScores.map fun e => e.chunk.chunkId).Nodup)
    (hnl : (lexicalScores.map fun e => e.1.chunkId).Nodup)
    (hz : (z ∈ vectorScores.map (fun e => e.chunk.chunkId) ∧
        z ∉ lexicalScores.map (fun e => e.1.chunkId)) ∨
      (z ∈ lexicalScores.map (fun e => e.1.chunkId) ∧
        z ∉ vectorScores.map (fun e => e.chunk.chunkId))) :
    (∃ i hi, ((fuseCandidates vectorScores lexicalScores wv wl).get
        ⟨i, hi⟩).chunk.chunkId = x.chunk.chunkId) ∧
    (∃ j hj, ((fuseCandidates vectorScores lexicalScores wv wl).get
        ⟨j, hj⟩).chunk.chunkId = z) ∧
    ∀ i j hi hj,
      ((fuseCandidates vectorScores lexicalScores wv wl).get
        ⟨i, hi⟩).chunk.chunkId = x.chunk.chunkId →
      ((fuseCandidates vectorScores lexicalScores wv wl).get
        ⟨j, hj⟩).chunk.chunkId = z → i < j := by
  classical
  have hvhead : vectorScores.map (fun e => e.chunk.chunkId) =
      x.chunk.chunkId :: (vrest.map fun e => e.chunk.chunkId) := by
    rw [hvec, List.map_cons]
  have hlhead : lexicalScores.map (fun e => e.1.chunkId) =
      x.chunk.chunkId :: (lrest.map fun e => e.1.chunkId) := by
    rw [hlex, List.map_cons, hid]
  have hcidv : x.chunk.chunkId ∈ vectorScores.map fun e => e.chunk.chunkId := by
    rw [hvhead]
    exact List.mem_cons_self _ _
  have hcidl : x.chunk.chunkId ∈ lexicalScores.map fun e => e.1.chunkId := by
    rw [hlhead]
    exact List.mem_cons_self _ _
  have hv0 : x.chunk.chunkId ∉ vrest.map fun e => e.chunk.chunkId := by
    have h := hnv
    rw [hvhead] at h
    exact (List.nodup_cons.mp h).1
  have hl0 : x.chunk.chunkId ∉ lrest.map fun e => e.1.chunkId := by
    have h := hnl
    rw [hlhead] at h
    exact (List.nodup_cons.mp h).1
  have hscid : (mapGet (fuseAccumulate wl (lexicalScores.map fun e => e.1.chunkId)
      (fuseAccumulate wv (vectorScores.map fun e => e.chunk.chunkId) []))
        x.chunk.chunkId).getD 0 = wv + wl := by
    rw [fusedScore_eq, hvhead, hlhead, sumContrib_head wv 0 _ _ hv0,
      sumContrib_head wl 0 _ _ hl0]
    norm_num
  have hsz : (mapGet (fuseAccumulate wl (lexicalScores.map fun e => e.1.chunkId)
      (fuseAccumulate wv (vectorScores.map fun e => e.chunk.chunkId) []))
        z).getD 0 < wv + wl ∧
      0 < (mapGet (fuseAccumulate wl (lexicalScores.map fun e => e.1.chunkId)
        (fuseAccumulate wv (vectorScores.map fun e => e.chunk.chunkId) []))
          z).getD 0 := by
    rw [fusedScore_eq]
    rcases hz with ⟨hzv, hzl⟩ | ⟨hzl, hzv⟩
    · rw [sumContrib_not_mem wl 0 _ z hzl]
      constructor
      · have h1 := sumContrib_le wv 0 _ z hv hnv
        linarith
      · have h2 := sumContrib_pos wv 0 _ z hv hzv
        linarith
    · rw [sumContrib_not_mem wv 0 _ z hzv]
      constructor
      · have h1 := sumContrib_le wl 0 _ z hl hnl
        linarith
      · have h2 := sumContrib_pos wl 0 _ z hl hzl
        linarith
  have hkeysnodup : ((fuseAccumulate wl (lexicalScores.map fun e => e.1.chunkId)
      (fuseAccumulate wv (vectorScores.map fun e => e.chunk.chunkId)
        [])).map Prod.fst).Nodup :=
    fuseAccumulate_keys_nodup wl _ _
      (fuseAccumulate_keys_nodup wv _ [] (by simp))
  have hinv : ∀ p ∈ collectUniqueChunks (lexicalScores.map Prod.fst)
      (collectUniqueChunks (vectorScores.map fun e => e.chunk) []),
      (p : String × ChunkRecord).2.chunkId = p.1 := by
    refine collectUniqueChunks_inv _ _ ?_
    refine collectUniqueChunks_inv _ _ ?_
    simp
  have huniqcid : (mapGet (collectUniqueChunks (lexicalScores.map Prod.fst)
      (collectUniqueChunks (vectorScores.map fun e => e.chunk) []))
        x.chunk.chunkId).isSome = true := by
    refine collectUniqueChunks_isSome _ _ _ (Or.inr ?_)
    refine collectUniqueChunks_isSome _ _ _ (Or.inl ?_)
    simpa [List.map_map, Function.comp] using hcidv
  have huniqz : (mapGet (collectUniqueChunks (lexicalScores.map Prod.fst)
      (collectUniqueChunks (vectorScores.map fun e => e.chunk) []))
        z).isSome = true := by
    rcases hz with ⟨hzv, _⟩ | ⟨hzl, _⟩
    · refine collectUniqueChunks_isSome _ _ _ (Or.inr ?_)
      refine collectUniqueChunks_isSome _ _ _ (Or.inl ?_)
      simpa [List.map_map, Function.comp] using hzv
    · refine collectUniqueChunks_isSome _ _ _ (Or.inl ?_)
      simpa [List.map_map, Function.comp] using hzl
  have hscoresome : mapGet (fuseAccumulate wl
      (lexicalScores.map fun e => e.1.chunkId)
      (fuseAccumulate wv (vectorScores.map fun e => e.chunk.chunkId) []))
        x.chunk.chunkId = some (wv + wl) := by
    rcases hopt : mapGet (fuseAccumulate wl
        (lexicalScores.map fun e => e.1.chunkId)
        (fuseAccumulate wv (vectorScores.map fun e => e.chunk.chunkId) []))
          x.chunk.chunkId with _ | v
    · exfalso
      rw [hopt] at hscid
      simp only [Option.getD_none] at hscid
      nlinarith
    · rw [hopt] at hscid
      simp only [Option.getD_some] at hscid
      rw [hopt, hscid]
  have hzsome : ∃ v, mapGet (fuseAccumulate wl
      (lexicalScores.map fun e => e.1.chunkId)
      (fuseAccumulate wv (vectorScores.map fun e => e.chunk.chunkId) []))
        z = some v ∧ v < wv + wl := by
    rcases hopt : mapGet (fuseAccumulate wl
        (lexicalScores.map fun e => e.1.chunkId)
        (fuseAccumulate wv (vectorScores.map fun e => e.chunk.chunkId) []))
          z with _ | v
    · rw [hopt] at hsz
      simp only [Option.getD_none] at hsz
      exact absurd hsz.2 (lt_irrefl 0)
    · rw [hopt] at hsz
      simp only [Option.getD_some] at hsz
      exact ⟨v, hopt, hsz.1⟩
  rcases Option.isSome_iff_exists.mp huniqcid with ⟨ccid, hccid⟩
  rcases Option.isSome_iff_exists.mp huniqz with ⟨cz, hcz⟩
  rcases hzsome with ⟨vz, hvz, hvzlt⟩
  have hfuse : fuseCandidates vectorScores lexicalScores wv wl =
      sortByDesc (fun entry => entry.score)
        ((fuseAccumulate wl (lexicalScores.map fun e => e.1.chunkId)
          (fuseAccumulate wv (vectorScores.map fun e => e.chunk.chunkId)
            [])).filterMap fun p =>
          (mapGet (collectUniqueChunks (lexicalScores.map Prod.fst)
            (collectUniqueChunks (vectorScores.map fun e => e.chunk) []))
              p.1).map fun chunk => RankedChunk.mk chunk p.2) := rfl
  have hmem1 : RankedChunk.mk ccid (wv + wl) ∈
      (fuseAccumulate wl (lexicalScores.map fun e => e.1.chunkId)
        (fuseAccumulate wv (vectorScores.map fun e => e.chunk.chunkId)
          [])).filterMap fun p =>
        (mapGet (collectUniqueChunks (lexicalScores.map Prod.fst)
          (collectUniqueChunks (vectorScores.map fun e => e.chunk) []))
            p.1).map fun chunk => RankedChunk.mk chunk p.2 := by
    refine List.mem_filterMap.mpr ⟨(x.chunk.chunkId, wv + wl), ?_, ?_⟩
    · exact mem_of_mapGet_eq_some _ _ _ hscoresome
    · simp [hccid]
  have hmem2 : RankedChunk.mk cz vz ∈
      (fuseAccumulate wl (lexicalScores.map fun e => e.1.chunkId)
        (fuseAccumulate wv (vectorScores.map fun e => e.chunk.chunkId)
          [])).filterMap fun p =>
        (mapGet (collectUniqueChunks (lexicalScores.map Prod.fst)
          (collectUniqueChunks (vectorScores.map fun e => e.chunk) []))
            p.1).map fun chunk => RankedChunk.mk chunk p.2 := by
    refine List.mem_filterMap.mpr ⟨(z, vz), ?_, ?_⟩
    · exact mem_of_mapGet_eq_some _ _ _ hvz
    · simp [hcz]
  have hccid_id : ccid.chunkId = x.chunk.chunkId :=
    hinv (x.chunk.chunkId, ccid) (mem_of_mapGet_eq_some _ _ _ hccid)
  have hcz_id : cz.chunkId = z :=
    hinv (z, cz) (mem_of_mapGet_eq_some _ _ _ hcz)
  have hsortmem1 : RankedChunk.mk ccid (wv + wl) ∈
      fuseCandidates vectorScores lexicalScores wv wl := by
    rw [hfuse]
    exact (sortByDesc_perm _ _).mem_iff.mpr hmem1
  have hsortmem2 : RankedChunk.mk cz vz ∈
      fuseCandidates vectorScores lexicalScores wv wl := by
    rw [hfuse]
    exact (sortByDesc_perm _ _).mem_iff.mpr hmem2
  have hscore_of_mem : ∀ entry ∈ fuseCandidates vectorScores lexicalScores wv wl,
      entry.score = (mapGet (fuseAccumulate wl
        (lexicalScores.map fun e => e.1.chunkId)
        (fuseAccumulate wv (vectorScores.map fun e => e.chunk.chunkId) []))
          entry.chunk.chunkId).getD 0 := by
    intro entry hmem
    rw [hfuse] at hmem
    exact fused_entry_score _ _ hkeysnodup hinv entry
      ((sortByDesc_perm _ _).mem_iff.mp hmem)
  refine ⟨?_, ?_, ?_⟩
  · rcases List.mem_iff_get.mp hsortmem1 with ⟨i, hi⟩
    refine ⟨(i : Nat), i.isLt, ?_⟩
    have hic : (fuseCandidates vectorScores lexicalScores wv wl).get
        ⟨(i : Nat), i.isLt⟩ = RankedChunk.mk ccid (wv + wl) := hi
    rw [hic]
    exact hccid_id
  · rcases List.mem_iff_get.mp hsortmem2 with ⟨j, hj⟩
    refine ⟨(j : Nat), j.isLt, ?_⟩
    have hjc : (fuseCandidates vectorScores lexicalScores wv wl).get
        ⟨(j : Nat), j.isLt⟩ = RankedChunk.mk cz vz := hj
    rw [hjc]
    exact hcz_id
  · intro i j hi hj hgi hgj
    have hsorted : (fuseCandidates vectorScores lexicalScores wv wl).Pairwise
        fun a b => (fun entry : RankedChunk => entry.score) b ≤
          (fun entry : RankedChunk => entry.score) a := by
      rw [hfuse]
      exact sortByDesc_sorted _ _
    refine sorted_desc_lt_of_gt (fun entry : RankedChunk => entry.score) _
      hsorted i j hi hj ?_
    have hei := hscore_of_mem _ (List.get_mem
      (fuseCandidates vectorScores lexicalScores wv wl) i hi)
    have hej := hscore_of_mem _ (List.get_mem
      (fuseCandidates vectorScores lexicalScores wv wl) j hj)
    rw [hgi] at hei
    rw [hgj] at hej
    simp only [hei, hej, hscid]
    exact hsz.1

/-- A chunk-record literal builder shared by the concrete scenarios of
several claims (fields not varied by a scenario get fixed filler). -/
def sampleChunk (id filePath : String) (embedding : List ℚ) : ChunkRecord :=
  { chunkId := id, filePath := filePath, noteTitle := "Note",
    headingPath := ["Note"], ordinal := 1, chunkType := ChunkType.text,
    tags := [], links := [], mtime := 1, content := "Body",
    representation := "Heading: Note\n\nBody", contentHash := "hash",
    tokens := 2, embedding := some embedding }

/-- Vector candidate list of the C4 witness. -/
def c4VectorScores : List RankedChunk :=
  [{ chunk := sampleChunk "top" "a.md" [1, 0], score := 1 },
   { chunk := sampleChunk "zz" "b.md" [0, 1], score := 1/2 }]

/-- Lexical candidate list of the C4 witness. -/
def c4LexicalScores : List (ChunkRecord × ℚ) :=
  [(sampleChunk "top" "a.md" [1, 0], 1/3)]

section
attribute [local semireducible] Rat.mul Rat.add Rat.sub Rat.inv

/-- C4 (witness): instantiation at a two-element vector list and a
one-element lexical list sharing the top candidate, with weights
7/10 and 3/10 and the single-list id zz. -/
theorem fuseCandidates_dual_top_first_witness :
    (0 : ℚ) < 7/10 ∧ (0 : ℚ) < 3/10 ∧
    (c4LexicalScores.head?.map fun e => e.1.chunkId) = some "top" ∧
    (c4VectorScores.map fun e => e.chunk.chunkId).Nodup ∧
    (c4LexicalScores.map fun e => e.1.chunkId).Nodup ∧
    ("zz" ∈ c4VectorScores.map (fun e => e.chunk.chunkId) ∧
      "zz" ∉ c4LexicalScores.map fun e => e.1.chunkId) ∧
    ((∃ i hi, ((fuseCandidates c4VectorScores c4LexicalScores (7/10)
        (3/10)).get ⟨i, hi⟩).chunk.chunkId =
      ({ chunk := sampleChunk "top" "a.md" [1, 0], score := 1 } :
        RankedChunk).chunk.chunkId) ∧
    (∃ j hj, ((fuseCandidates c4VectorScores c4LexicalScores (7/10)
        (3/10)).get ⟨j, hj⟩).chunk.chunkId = "zz") ∧
    ∀ i j hi hj,
      ((fuseCandidates c4VectorScores c4LexicalScores (7/10) (3/10)).get
        ⟨i, hi⟩).chunk.chunkId =
        ({ chunk := sampleChunk "top" "a.md" [1, 0], score := 1 } :
          RankedChunk).chunk.chunkId →
      ((fuseCandidates c4VectorScores c4LexicalScores (7/10) (3/10)).get
        ⟨j, hj⟩).chunk.chunkId = "zz" → i < j) := by
  refine ⟨by norm_num, by norm_num, by decide, by decide, by decide,
    by decide, ?_⟩
  exact fuseCandidates_dual_top_first c4VectorScores c4LexicalScores
    (7/10) (3/10) { chunk := sampleChunk "top" "a.md" [1, 0], score := 1 }
    [{ chunk := sampleChunk "zz" "b.md" [0, 1], score := 1/2 }]
    (sampleChunk "top" "a.md" [1, 0], 1/3) [] "zz"
    (by norm_num) (by norm_num) rfl rfl rfl (by decide) (by decide)
    (Or.inl (by decide))

end

/-! Claim C9: the concrete three-chunk retrieval scenario. -/

/-- Corpus of the C9 scenario. -/
def c9Corpus : List ChunkRecord :=
  [sampleChunk "a" "A.md" [1, 0], sampleChunk "b" "B.md" [9/10, 0],
   sampleChunk "c" "C.md" [0, 1]]

/-- Retrieval configuration of the C9 scenario: top 2 requested, MMR
lambda 1/2, pool covering all three candidates, no recency boost. -/
def c9Retrieval : RetrievalConfig :=
  { vector_top_k := 10, lexical_top_k := 5, fusionWeightVector := 7/10,
    fusionWeightLexical := 3/10, mmr_lambda := 1/2, rerank_top_n := 2,
    recency_boost := 0, diversification_pool := 10 }

/-- Feature flags for plain vector-only retrieval. -/
def c9FlagsPlain : FeatureFlags :=
  { hybrid_retrieval := false, reranking := false,
    mmr_diversification := false }

/-- Feature flags with MMR diversification on. -/
def c9FlagsMmr : FeatureFlags :=
  { hybrid_retrieval := false, reranking := false,
    mmr_diversification := true }

section
attribute [local semireducible] Rat.mul Rat.add Rat.sub Rat.inv

/-- C9: with embeddings A = [1,0], B = [0.9,0], C = [0,1] and query
[1,0], vector-only retrieval of the top 2 returns A then B; with MMR
diversification (lambda = 1/2) over the pool of all three candidates the
top 2 are A then C, so C is ranked ahead of B (B drops out of the
selection entirely, which is what the swap-in amounts to). -/
theorem retrieve_c9_scenario :
    ((retrieve c9FlagsPlain c9Retrieval c9Corpus 0 [] none [1, 0]
      none).map fun e => e.chunk.chunkId) = ["a", "b"] ∧
    ((retrieve c9FlagsMmr c9Retrieval c9Corpus 0 [] none [1, 0]
      none).map fun e => e.chunk.chunkId) = ["a", "c"] ∧
    (((retrieve c9FlagsMmr c9Retrieval c9Corpus 0 [] none [1, 0]
      none).map fun e => e.chunk.chunkId).indexOf "c" <
     ((retrieve c9FlagsMmr c9Retrieval c9Corpus 0 [] none [1, 0]
      none).map fun e => e.chunk.chunkId).indexOf "b") := by
  refine ⟨by decide, by decide, by decide⟩

end

/-! Claim C10: the retrieve output is capped by rerank_top_n. -/

theorem perm_get_cons_eraseIdx (l : List α) (b : Nat) (hb : b < l.length) :
    List.Perm (l.get ⟨b, hb⟩ :: l.eraseIdx b) l := by
  induction l generalizing b with
  | nil => simp at hb
  | cons x xs ih =>
      match b with
      | 0 => simp [List.eraseIdx]
      | bb + 1 =>
          have hbb : bb < xs.length := by simpa using hb
          have h2 := (ih bb hbb).cons x
          have h1 : List.Perm (xs.get ⟨bb, hbb⟩ :: x :: xs.eraseIdx bb)
              (x :: xs.get ⟨bb, hbb⟩ :: xs.eraseIdx bb) :=
            List.Perm.swap x _ _
          exact h1.trans h2

theorem applyMmrGo_length (lambda : ℚ) (topN : Nat) (fuel : Nat)
    (selected remaining : List RankedChunk)
    (h : selected.length ≤ topN) :
    (applyMmrGo lambda topN fuel selected remaining).length ≤ topN := by
  induction fuel generalizing selected remaining with
  | zero => simpa [applyMmrGo] using h
  | succ fuel ih =>
      rw [applyMmrGo]
      split
      · next hc =>
          exact ih _ _ (by
            simpa using Nat.succ_le_of_lt hc.1)
      · exact h

theorem applyMmr_length (candidates : List RankedChunk) (topN : Nat)
    (lambda : ℚ) : (applyMmr candidates topN lambda).length ≤ topN := by
  rw [applyMmr]
  split
  · next hc => exact hc
  · exact applyMmrGo_length lambda topN _ [] candidates (by simp)

theorem applyMmrGo_append_perm (lambda : ℚ) (topN : Nat) (fuel : Nat)
    (selected remaining : List RankedChunk) :
    ∃ rest, List.Perm
      (applyMmrGo lambda topN fuel selected remaining ++ rest)
      (selected ++ remaining) := by
  induction fuel generalizing selected remaining with
  | zero => exact ⟨remaining, by simp [applyMmrGo]⟩
  | succ fuel ih =>
      rw [applyMmrGo]
      split
      · next hc =>
          set scored := remaining.map fun c => mmrScore lambda selected c
            with hscored
          have hb : argmaxIdx scored < remaining.length := by
            have := argmaxIdx_lt scored (by
              simpa [hscored, List.map_eq_nil_iff] using hc.2)
            simpa [hscored] using this
          rcases ih (selected ++ [remaining.get ⟨argmaxIdx scored, by
              simpa [hscored] using hb⟩])
            (remaining.eraseIdx (argmaxIdx scored)) with ⟨rest, hperm⟩
          refine ⟨rest, hperm.trans ?_⟩
          have h1 : List.Perm
              (remaining.get ⟨argmaxIdx scored, by
                simpa [hscored] using hb⟩ ::
                remaining.eraseIdx (argmaxIdx scored)) remaining :=
            perm_get_cons_eraseIdx remaining (argmaxIdx scored) (by
              simpa [hscored] using hb)
          have h2 : (selected ++ [remaining.get ⟨argmaxIdx scored, by
              simpa [hscored] using hb⟩]) ++
              remaining.eraseIdx (argmaxIdx scored) =
            selected ++ (remaining.get ⟨argmaxIdx scored, by
              simpa [hscored] using hb⟩ ::
              remaining.eraseIdx (argmaxIdx scored)) := by simp
          rw [h2]
          exact List.Perm.append_left selected h1
      · exact ⟨remaining, List.Perm.refl _⟩

theorem applyMmr_map_nodup (candidates : List RankedChunk) (topN : Nat)
    (lambda : ℚ) (f : RankedChunk → String)
    (h : (candidates.map f).Nodup) :
    ((applyMmr candidates topN lambda).map f).Nodup := by
  rw [applyMmr]
  split
  · exact h
  · rcases applyMmrGo_append_perm lambda topN candidates.length []
      candidates with ⟨rest, hperm⟩
    have hmap := hperm.map f
    simp only [List.map_append, List.nil_append] at hmap
    have : ((applyMmrGo lambda topN candidates.length [] candidates).map f
        ++ rest.map f).Nodup := (hmap.nodup_iff).mpr h
    exact (List.nodup_append.mp this).1

theorem mapGet_foldl_mapSet_mem (key : γ → String) (l : List γ)
    (m : List (String × γ)) (k : String)
    (h : (mapGet (l.foldl (fun acc x => mapSet acc (key x) x) m) k).isSome
      = true) : k ∈ l.map key ∨ (mapGet m k).isSome = true := by
  induction l generalizing m with
  | nil => exact Or.inr h
  | cons c rest ih =>
      rcases ih (mapSet m (key c) c) h with h1 | h1
      · exact Or.inl (by simpa using Or.inr (by simpa using h1))
      · by_cases hk : k = key c
        · exact Or.inl (by simp [hk])
        · rw [mapGet_mapSet_ne _ _ _ _ hk] at h1
          exact Or.inr h1

theorem length_filter_split (l : List γ) (p : γ → Bool) :
    (l.filter p).length + (l.filter fun a => ¬ p a).length = l.length := by
  induction l with
  | nil => simp
  | cons c rest ih =>
      by_cases hc : p c
      · simp [List.filter_cons, hc, ← ih]
        omega
      · simp [List.filter_cons, hc, ← ih]
        omega

theorem nodup_filter_mem_length_comm (l1 l2 : List String)
    (h1 : l1.Nodup) (h2 : l2.Nodup) :
    (l1.filter fun a => a ∈ l2).length =
      (l2.filter fun a => a ∈ l1).length := by
  rw [← List.toFinset_card_of_nodup (h1.filter _),
    ← List.toFinset_card_of_nodup (h2.filter _),
    List.toFinset_filter, List.toFinset_filter]
  congr 1
  apply Finset.ext
  intro a
  simp only [Finset.mem_filter, List.mem_toFinset, decide_eq_true_eq]
  exact and_comm

/-- The reranker never grows the candidate list when the parsed response
mentions no id twice and the candidate ids are distinct. -/
theorem rerank_length (candidates : List RankedChunk)
    (orderedIds : List String) (hno : orderedIds.Nodup)
    (hnc : (candidates.map fun e => e.chunk.chunkId).Nodup) :
    (rerank candidates orderedIds).length ≤ candidates.length := by
  rw [rerank]
  split
  · exact le_refl _
  · split
    · exact le_refl _
    · rw [List.length_append]
      have hA : (orderedIds.filterMap fun id => mapGet (candidates.foldl
          (fun acc entry => mapSet acc entry.chunk.chunkId entry) [])
          id).length ≤
          (candidates.filter fun entry =>
            entry.chunk.chunkId ∈ orderedIds).length := by
        rw [List.length_filterMap_eq_countP, List.countP_eq_length_filter]
        have hsub : ∀ id : String,
            ((fun id => (mapGet (candidates.foldl
              (fun acc entry => mapSet acc entry.chunk.chunkId entry) [])
              id).isSome) id) = true →
            ((fun id => decide (id ∈ candidates.map fun e =>
              e.chunk.chunkId)) id) = true := by
          intro id hid
          rcases mapGet_foldl_mapSet_mem (fun e => e.chunk.chunkId)
            candidates [] id hid with hm | hm
          · simpa using hm
          · simp [mapGet] at hm
        have hmono := List.monotone_filter_right orderedIds hsub
        have hlen1 : (orderedIds.filter fun id => (mapGet (candidates.foldl
            (fun acc entry => mapSet acc entry.chunk.chunkId entry) [])
            id).isSome).length ≤
            (orderedIds.filter fun id => decide (id ∈ candidates.map
              fun e => e.chunk.chunkId)).length :=
          hmono.length_le
        refine le_trans hlen1 ?_
        have hcomm := nodup_filter_mem_length_comm orderedIds
          (candidates.map fun e => e.chunk.chunkId) hno hnc
        have hmapfilter : ((candidates.map fun e => e.chunk.chunkId).filter
            fun a => a ∈ orderedIds).length =
            (candidates.filter fun entry =>
              entry.chunk.chunkId ∈ orderedIds).length := by
          rw [List.filter_map, List.length_map]
          congr 1
        exact le_of_eq (by rw [hcomm, hmapfilter])
      have hB : (candidates.filter fun entry =>
          ¬ orderedIds.contains entry.chunk.chunkId).length =
          (candidates.filter fun entry =>
            ¬ (decide (entry.chunk.chunkId ∈ orderedIds) = true)).length := by
        congr 1
        apply List.filter_congr
        intro e _
        simp [List.contains, List.elem_eq_mem]
      rw [hB]
      have hsplit := length_filter_split candidates
        fun entry => decide (entry.chunk.chunkId ∈ orderedIds)
      omega

theorem filterMap_ids_sublist (scores : List (String × ℚ))
    (uniq : List (String × ChunkRecord))
    (hinv : ∀ p ∈ uniq, (p : String × ChunkRecord).2.chunkId = p.1) :
    ((scores.filterMap fun p =>
      (mapGet uniq p.1).map fun chunk => RankedChunk.mk chunk p.2).map
        fun e => e.chunk.chunkId).Sublist (scores.map Prod.fst) := by
  induction scores with
  | nil => simp
  | cons q qrest ih =>
      rcases hq : mapGet uniq q.1 with _ | chunk
      · simp only [List.filterMap_cons, hq, Option.map_none', List.map_cons]
        exact ih.cons q.1
      · simp only [List.filterMap_cons, hq, Option.map_some', List.map_cons]
        have hid : chunk.chunkId = q.1 :=
          hinv (q.1, chunk) (mem_of_mapGet_eq_some uniq q.1 chunk hq)
        rw [show (RankedChunk.mk chunk q.2).chunk.chunkId = q.1 from hid]
        exact ih.cons₂ q.1

/-- The fused candidate list never repeats a chunk id. -/
theorem fuseCandidates_ids_nodup (vectorScores : List RankedChunk)
    (lexicalScores : List (ChunkRecord × ℚ)) (wv wl : ℚ) :
    ((fuseCandidates vectorScores lexicalScores wv wl).map
      fun e => e.chunk.chunkId).Nodup := by
  have hkeys : ((fuseAccumulate wl (lexicalScores.map fun e => e.1.chunkId)
      (fuseAccumulate wv (vectorScores.map fun e => e.chunk.chunkId)
        [])).map Prod.fst).Nodup :=
    fuseAccumulate_keys_nodup wl _ _
      (fuseAccumulate_keys_nodup wv _ [] (by simp))
  have hinv : ∀ p ∈ collectUniqueChunks (lexicalScores.map Prod.fst)
      (collectUniqueChunks (vectorScores.map fun e => e.chunk) []),
      (p : String × ChunkRecord).2.chunkId = p.1 := by
    refine collectUniqueChunks_inv _ _ ?_
    refine collectUniqueChunks_inv _ _ ?_
    simp
  have hpre := (filterMap_ids_sublist _ _ hinv).nodup hkeys
  have hperm := (sortByDesc_perm (fun entry : RankedChunk => entry.score)
    ((fuseAccumulate wl (lexicalScores.map fun e => e.1.chunkId)
      (fuseAccumulate wv (vectorScores.map fun e => e.chunk.chunkId)
        [])).filterMap fun p =>
      (mapGet (collectUniqueChunks (lexicalScores.map Prod.fst)
        (collectUniqueChunks (vectorScores.map fun e => e.chunk) []))
          p.1).map fun chunk => RankedChunk.mk chunk p.2)).map
    fun e => e.chunk.chunkId
  exact hperm.nodup_iff.mpr hpre

theorem dedupeFusedGo_sublist (seenFiles : List (String × Nat))
    (entries : List RankedChunk) :
    (dedupeFusedGo seenFiles entries).Sublist entries := by
  induction entries generalizing seenFiles with
  | nil => simp [dedupeFusedGo]
  | cons entry rest ih =>
      rw [dedupeFusedGo]
      split
      · exact (ih seenFiles).cons entry
      · exact (ih _).cons₂ entry

/-- C10 (amended): retrieve returns at most rerank_top_n chunks whenever
the reranker is absent or its parsed response mentions no chunk id
twice; the deduplicated fused list is truncated or MMR-selected down to
rerank_top_n, whose ids are then pairwise distinct, and under a
duplicate-free response the reranker cannot grow the list. -/
theorem retrieve_at_most_topn (features : FeatureFlags)
    (cfg : RetrievalConfig) (allChunks : List ChunkRecord) (now : ℚ)
    (lexicalResults : List (ChunkRecord × ℚ))
    (rerankerIds : Option (List String)) (questionEmbedding : List ℚ)
    (filters : Option RetrievalFilters)
    (hids : ∀ ids, rerankerIds = some ids → ids.Nodup) :
    (retrieve features cfg allChunks now lexicalResults rerankerIds
      questionEmbedding filters).length ≤ cfg.rerank_top_n := by
  have hdivlen : ∀ deduped : List RankedChunk,
      (if features.mmr_diversification ∧
          cfg.rerank_top_n < deduped.length then
        applyMmr (deduped.take cfg.diversification_pool) cfg.rerank_top_n
          cfg.mmr_lambda
      else deduped.take cfg.rerank_top_n).length ≤ cfg.rerank_top_n := by
    intro deduped
    split
    · exact applyMmr_length _ _ _
    · exact List.length_take_le _ _
  have hdivnodup : ∀ deduped : List RankedChunk,
      ((deduped.map fun e => e.chunk.chunkId).Nodup) →
      (((if features.mmr_diversification ∧
          cfg.rerank_top_n < deduped.length then
        applyMmr (deduped.take cfg.diversification_pool) cfg.rerank_top_n
          cfg.mmr_lambda
      else deduped.take cfg.rerank_top_n).map
        fun e => e.chunk.chunkId).Nodup) := by
    intro deduped hd
    split
    · refine applyMmr_map_nodup _ _ _ _ ?_
      exact ((List.take_sublist _ _).map _).nodup hd
    · exact ((List.take_sublist _ _).map _).nodup hd
  have hdednodup : ((dedupeFused (fuseCandidates
      (scoreVectorCandidates allChunks now cfg.recency_boost
        questionEmbedding cfg.vector_top_k filters)
      (if features.hybrid_retrieval then lexicalResults else [])
      cfg.fusionWeightVector cfg.fusionWeightLexical)).map
        fun e => e.chunk.chunkId).Nodup := by
    refine ((dedupeFusedGo_sublist [] _).map _).nodup ?_
    exact fuseCandidates_ids_nodup _ _ _ _
  rcases hr : rerankerIds with _ | ids
  · rw [retrieve]
    exact hdivlen _
  · rw [retrieve]
    by_cases hrk : features.reranking
    · simp only [hrk, if_true]
      refine le_trans (rerank_length _ ids (hids ids hr) ?_) (hdivlen _)
      exact hdivnodup _ hdednodup
    · simp only [hrk, if_false]
      exact hdivlen _

/-- Corpus of the C10 counterexample (three chunks in three files). -/
def c10Corpus : List ChunkRecord :=
  [sampleChunk "a" "A.md" [1, 0], sampleChunk "b" "B.md" [9/10, 0],
   sampleChunk "c" "C.md" [0, 1]]

/-- Feature flags of the C10 scenarios: reranking on. -/
def c10Flags : FeatureFlags :=
  { hybrid_retrieval := false, reranking := true,
    mmr_diversification := false }

section
attribute [local semireducible] Rat.mul Rat.add Rat.sub Rat.inv

/-- C10 (counterexample): with rerank_top_n = 2 and a reranker response
that repeats the id a, retrieve returns three chunks, one of them twice,
exceeding the cap; the reranker does add entries when an id occurs twice
in its response. -/
theorem retrieve_exceeds_topn_on_duplicate_ids :
    c9Retrieval.rerank_top_n = 2 ∧
    ((retrieve c10Flags c9Retrieval c10Corpus 0 [] (some ["a", "a"])
      [1, 0] none).map fun e => e.chunk.chunkId) = ["a", "a", "b"] ∧
    (retrieve c10Flags c9Retrieval c10Corpus 0 [] (some ["a", "a"])
      [1, 0] none).length = 3 := by
  refine ⟨by decide, by decide, by decide⟩

/-- C10 (witness): for the duplicate-free response [b, a] the amended
bound holds at the same corpus and configuration. -/
theorem retrieve_at_most_topn_witness :
    (["b", "a"] : List String).Nodup ∧
    (retrieve c10Flags c9Retrieval c10Corpus 0 [] (some ["b", "a"])
      [1, 0] none).length ≤ c9Retrieval.rerank_top_n := by
  refine ⟨by decide, ?_⟩
  refine retrieve_at_most_topn c10Flags c9Retrieval c10Corpus 0 []
    (some ["b", "a"]) [1, 0] none ?_
  intro ids h
  rcases Option.some.injEq .. ▸ h with h2
  rw [← h2]
  decide

end

/-! Claim C1: a queued chunk that receives no embedding. -/

/-- The previously indexed chunk of a.md in the C1 scenario. -/
def c1OldChunk : ChunkRecord :=
  { sampleChunk "old" "a.md" [1, 0] with contentHash := "h0" }

/-- First new chunk of a.md; the adapter will embed it. -/
def c1NewChunk1 : ChunkRecord :=
  { sampleChunk "c1" "a.md" [] with
      contentHash := "h1"
      embedding := none }

/-- Second new chunk of a.md; the adapter will silently omit it. -/
def c1NewChunk2 : ChunkRecord :=
  { sampleChunk "c2" "a.md" [] with
      contentHash := "h2"
      embedding := none }

/-- Store state before the C1 run: a.md is indexed with the old chunk. -/
def c1Store : StoreState :=
  { chunks := [c1OldChunk]
    files := [("a.md", { mtime := 0, chunkCount := 1, contentHash := "h0" })] }

/-- The observed file of the C1 scenario (mtime changed, so it is
reprocessed). -/
def c1File : VaultFile := { relative := "a.md", mtime := 5, markdown := "body" }

/-- Chunker of the C1 scenario: the document now has two chunks. -/
def c1ChunkFn : VaultFile → List ChunkRecord :=
  fun _ => [c1NewChunk1, c1NewChunk2]

/-- Adapter of the C1 scenario: returns an embedding for chunk c1 only,
omitting the queued chunk c2 from its result list. -/
def c1Embed : EmbedFn := fun payloads =>
  Except.ok (payloads.filterMap fun p =>
    if p.1 = "c1" then some (p.1, ([1, 0] : List ℚ)) else none)

section
attribute [local semireducible] Rat.mul Rat.add Rat.sub Rat.inv

/-- C1: when the adapter fails to return an embedding for the queued
chunk c2, the indexer does NOT reject the document update: the run
succeeds, the stale chunk old is deleted, and only chunk c1 is written,
so the store ends with a partial chunk set (c2 is silently dropped and
the document is not left at its previous indexed state).  The claim
(and the unreachable missing-embedding guard of persistFile) requires
the update to be rejected instead. -/
theorem runIndexer_partial_write_on_missing_embedding :
    (runIndexer c1ChunkFn c1Embed [c1File] c1Store).map
      (fun r => (r.1.chunks.map fun c => (c.chunkId, c.embedding),
        r.2.1.processed,
        r.1.files.map fun p => (p.1, p.2.chunkCount))) =
    Except.ok ([("c1", some ([1, 0] : List ℚ))], 1, [("a.md", 1)]) := by
  decide

end

/-! Claim C2: a per-document failure and the whole run. -/

/-- Adapter of the C2 scenario: every batch exhausts the three retry
attempts of embedWithRetries and rethrows the final error. -/
def c2Embed : EmbedFn := fun _ =>
  match embedWithRetries fun _ => Except.error "ollama embed failed" with
  | Except.error e => Except.error e
  | Except.ok _ => Except.ok []

/-- First file of the C2 walk (its embedding batch fails). -/
def c2File1 : VaultFile := { relative := "a.md", mtime := 5, markdown := "a" }

/-- Second file of the C2 walk (never reached). -/
def c2File2 : VaultFile := { relative := "b.md", mtime := 5, markdown := "b" }

/-- Chunker of the C2 scenario: one pending chunk per file. -/
def c2ChunkFn : VaultFile → List ChunkRecord := fun f =>
  [{ sampleChunk f.relative f.relative [] with embedding := none }]

/-- Empty store of the C2 scenario. -/
def c2EmptyStore : StoreState := { chunks := [], files := [] }

section
attribute [local semireducible] Rat.mul Rat.add Rat.sub Rat.inv

/-- C2 (counterexample): with two changed documents where the first
document's embedding call fails after retry exhaustion, the whole run
aborts with that error; the second document is never processed and no
stats are reported, contradicting the claim that the failing document
is reported and skipped while the walk continues. -/
theorem runIndexer_aborts_on_single_failure :
    runIndexer c2ChunkFn c2Embed [c2File1, c2File2] c2EmptyStore =
      Except.error (IndexError.embedFailed "ollama embed failed") := by
  decide

end

/-- C2 (amended): an error raised while processing any document of the
walk propagates out of the run unchanged (the loop body has no catch):
the remaining documents are not processed and the deletion
reconciliation never runs. -/
theorem runIndexer_error_of_processFile_error
    (chunkFn : VaultFile → List ChunkRecord) (embedFn : EmbedFn)
    (file : VaultFile) (rest : List VaultFile) (σ : StoreState)
    (e : IndexError)
    (h : processFile chunkFn embedFn σ
      { processed := 0, skipped := 0, removed := 0, chunksUpserted := 0,
        chunksDeleted := 0 }
      { reads := [], chunked := [], embedBatches := [] } file =
        Except.error e) :
    runIndexer chunkFn embedFn (file :: rest) σ = Except.error e := by
  rw [runIndexer, runFiles, h]

section
attribute [local semireducible] Rat.mul Rat.add Rat.sub Rat.inv

/-- C2 (witness): the amended abort theorem applied to the concrete
failing walk of the counterexample scenario. -/
theorem runIndexer_error_of_processFile_error_witness :
    processFile c2ChunkFn c2Embed c2EmptyStore
      { processed := 0, skipped := 0, removed := 0, chunksUpserted := 0,
        chunksDeleted := 0 }
      { reads := [], chunked := [], embedBatches := [] } c2File1 =
      Except.error (IndexError.embedFailed "ollama embed failed") ∧
    runIndexer c2ChunkFn c2Embed [c2File1, c2File2] c2EmptyStore =
      Except.error (IndexError.embedFailed "ollama embed failed") := by
  refine ⟨by decide, ?_⟩
  exact runIndexer_error_of_processFile_error c2ChunkFn c2Embed c2File1
    [c2File2] c2EmptyStore (IndexError.embedFailed "ollama embed failed")
    (by decide)

end

/-- Corpus of the C8 witness: one unfiltered chunk. -/
def c8Chunks : List ChunkRecord :=
  [sampleChunk "a" "a.md" [1]]

/-- The single scored candidate of the C8 witness: dot [1] [1] plus the
full recency weight 1/10 (the chunk mtime 1 lies after now = 0). -/
def c8Entry : RankedChunk :=
  { chunk := sampleChunk "a" "a.md" [1], score := 11/10 }

section
attribute [local semireducible] Rat.mul Rat.add Rat.sub Rat.inv

/-- C8 (witness): the amended score decomposition applied to the
concrete one-chunk corpus, discharging the membership hypothesis by
evaluation. -/
theorem scoreVectorCandidates_recency_witness :
    c8Entry ∈ scoreVectorCandidates c8Chunks 0 (1/10) [1] 5 none ∧
    (c8Entry.score = dot (c8Entry.chunk.embedding.getD []) [1] +
        recencyBoost 0 c8Entry.chunk.mtime (1/10) ∧
      ((1 : ℚ)/10 ≤ 0 → recencyBoost 0 c8Entry.chunk.mtime (1/10) = 0) ∧
      (0 < (1 : ℚ)/10 →
        (0 - c8Entry.chunk.mtime) / (1000 * 60 * 60 * 24) ≤ 0 →
        recencyBoost 0 c8Entry.chunk.mtime (1/10) = 1/10) ∧
      (0 < (1 : ℚ)/10 →
        0 < (0 - c8Entry.chunk.mtime) / (1000 * 60 * 60 * 24) →
        recencyBoost 0 c8Entry.chunk.mtime (1/10) =
          (1/10) / (1 + (0 - c8Entry.chunk.mtime) / (1000 * 60 * 60 * 24)))) :=
  ⟨by decide,
    scoreVectorCandidates_recency c8Chunks 0 (1/10) [1] 5 none c8Entry
      (by decide)⟩

end

/-! Claim C3: a second run over an unchanged corpus embeds nothing, and
every mtime-equal file is skipped without being read or chunked.  The
hypotheses name the contracts the source establishes elsewhere:
chunkMarkdown stamps every chunk of a file with that file's path and
mtime and derives the chunk id from the path (modelled by an ownership
map from chunk ids to paths), and OllamaEmbedder returns one vector per
requested payload id. -/

/-- Every stored chunk id belongs to the path that owns it; chunk ids
are path-qualified in the source (filePath#ordinal), so rows of
different paths never collide on the chunk_id primary key. -/
def storeOwned (owner : String → String) (σ : StoreState) : Prop :=
  ∀ c ∈ σ.chunks, owner c.chunkId = c.filePath

/-- chunkMarkdown stamps each produced chunk with the file's relative
path and mtime, and its chunk ids are owned by the file's path. -/
def chunksStamped (owner : String → String)
    (chunkFn : VaultFile → List ChunkRecord) (f : VaultFile) : Prop :=
  ∀ c ∈ chunkFn f, c.filePath = f.relative ∧ c.mtime = f.mtime ∧
    owner c.chunkId = f.relative

/-- The adapter contract of OllamaEmbedder.embed: it succeeds and its
result map covers every requested payload id. -/
def embedCovering (embedFn : EmbedFn) : Prop :=
  ∀ payloads, ∃ results, embedFn payloads = Except.ok results ∧
    ∀ p ∈ payloads, (mapGet (embeddingMapOf results) p.1).isSome = true

/-- A file the indexer has nothing left to do for: either its stored
file-state mtime equals the file's mtime (the skip test of run), or the
file chunks to nothing and the store holds no rows for it. -/
def readyFile (chunkFn : VaultFile → List ChunkRecord) (σ : StoreState)
    (f : VaultFile) : Prop :=
  (∃ st, mapGet σ.files f.relative = some st ∧ st.mtime = f.mtime) ∨
  (chunkFn f = [] ∧ loadChunksByFile σ f.relative = [])

theorem filter_filter_of_imp (l : List α) (p r : α → Bool)
    (h : ∀ c ∈ l, r c = true → p c = true) :
    (l.filter p).filter r = l.filter r := by
  induction l with
  | nil => rfl
  | cons c rest ih =>
      have ih' := ih fun d hd => h d (List.mem_cons_of_mem c hd)
      cases hr : r c with
      | true =>
          have hp : p c = true := h c (List.mem_cons_self c rest) hr
          simp [List.filter_cons, hp, hr, ih']
      | false =>
          cases hp : p c with
          | true => simp [List.filter_cons, hp, hr, ih']
          | false => simp [List.filter_cons, hp, hr, ih']

theorem mapGet_filter_ne (m : List (String × β)) (path q : String)
    (h : ¬ q = path) :
    mapGet (m.filter fun e => ¬ e.1 = path) q = mapGet m q := by
  induction m with
  | nil => rfl
  | cons e rest ih =>
      obtain ⟨k1, v1⟩ := e
      rw [List.filter_cons]
      by_cases he : k1 = path
      · rw [if_neg (by simp [he])]
        have hq : ¬ k1 = q := by
          rw [he]
          exact fun hk => h (Eq.symm hk)
        rw [ih]
        simp [mapGet, hq]
      · rw [if_pos (by simp [he])]
        by_cases hq : k1 = q
        · simp [mapGet, hq]
        · simp only [mapGet, if_neg hq]
          exact ih

theorem mapGet_foldl_mapSet_frame (val : String → β) (l : List String) :
    ∀ (m : List (String × β)) (q : String), (∀ p ∈ l, ¬ p = q) →
    mapGet (l.foldl (fun acc p => mapSet acc p (val p)) m) q = mapGet m q := by
  induction l with
  | nil => intro m q _; rfl
  | cons p rest ih =>
      intro m q h
      have hp : ¬ p = q := h p (List.mem_cons_self p rest)
      have hrest := ih (mapSet m p (val p)) q
        fun x hx => h x (List.mem_cons_of_mem p hx)
      rw [List.foldl_cons, hrest,
        mapGet_mapSet_ne m p q (val p) fun hk => hp (Eq.symm hk)]

theorem dedup_const [DecidableEq α] (l : List α) (x : α) (hne : l ≠ [])
    (h : ∀ y ∈ l, y = x) : l.dedup = [x] := by
  have hxl : x ∈ l := by
    cases l with
    | nil => exact absurd rfl hne
    | cons a t =>
        have ha := h a (List.mem_cons_self a t)
        rw [← ha]
        exact List.mem_cons_self a t
  have hx : x ∈ l.dedup := List.mem_dedup.mpr hxl
  have hnd := l.nodup_dedup
  cases hd : l.dedup with
  | nil =>
      rw [hd] at hx
      exact absurd hx (List.not_mem_nil x)
  | cons a t =>
      have had : a ∈ l.dedup := by
        rw [hd]
        exact List.mem_cons_self a t
      have ha : a = x := h a (List.mem_dedup.mp had)
      cases t with
      | nil => rw [ha]
      | cons b s =>
          have hbd : b ∈ l.dedup := by
            rw [hd]
            exact List.mem_cons_of_mem a (List.mem_cons_self b s)
          have hb : b = x := h b (List.mem_dedup.mp hbd)
          rw [hd] at hnd
          have hna := (List.nodup_cons.mp hnd).1
          refine absurd (show a ∈ b :: s from ?_) hna
          rw [ha, ← hb]
          exact List.mem_cons_self b s

theorem foldl_max_const (xs : List ℚ) : ∀ a : ℚ, (∀ x ∈ xs, x = a) →
    xs.foldl max a = a := by
  induction xs with
  | nil => intro a _; rfl
  | cons x t ih =>
      intro a h
      rw [List.foldl_cons, h x (List.mem_cons_self x t), max_self]
      exact ih a fun y hy => h y (List.mem_cons_of_mem x hy)

theorem listMaxQ_const (l : List ℚ) (mt : ℚ) (hne : l ≠ [])
    (h : ∀ x ∈ l, x = mt) : listMaxQ l = mt := by
  cases l with
  | nil => exact absurd rfl hne
  | cons x xs =>
      rw [listMaxQ, h x (List.mem_cons_self x xs)]
      exact foldl_max_const xs mt fun y hy => h y (List.mem_cons_of_mem x hy)

theorem mem_upsertChunkRow (chunks : List ChunkRecord) (b c : ChunkRecord)
    (h : c ∈ upsertChunkRow chunks b) : c ∈ chunks ∨ c = b := by
  unfold upsertChunkRow at h
  split at h
  · rcases List.mem_map.mp h with ⟨x, hx, hxc⟩
    replace hxc : (if x.chunkId = b.chunkId then b else x) = c := hxc
    by_cases hid : x.chunkId = b.chunkId
    · rw [if_pos hid] at hxc
      exact Or.inr (Eq.symm hxc)
    · rw [if_neg hid] at hxc
      rw [← hxc]
      exact Or.inl hx
  · rcases List.mem_append.mp h with hx | hx
    · exact Or.inl hx
    · exact Or.inr (List.mem_singleton.mp hx)

theorem mem_foldl_upsertChunkRow (batch : List ChunkRecord) :
    ∀ (chunks : List ChunkRecord) (c : ChunkRecord),
      c ∈ batch.foldl upsertChunkRow chunks → c ∈ chunks ∨ c ∈ batch := by
  induction batch with
  | nil =>
      intro chunks c h
      exact Or.inl h
  | cons b rest ih =>
      intro chunks c h
      rcases ih (upsertChunkRow chunks b) c h with hc | hc
      · rcases mem_upsertChunkRow chunks b c hc with hm | hm
        · exact Or.inl hm
        · refine Or.inr ?_
          rw [hm]
          exact List.mem_cons_self b rest
      · exact Or.inr (List.mem_cons_of_mem b hc)

theorem filter_map_replace_ne (b : ChunkRecord) (q : String)
    (hbq : ¬ b.filePath = q) :
    ∀ chunks : List ChunkRecord,
      (∀ c ∈ chunks, c.filePath = q → ¬ b.chunkId = c.chunkId) →
      ((chunks.map fun c => if c.chunkId = b.chunkId then b else c).filter
          fun c => c.filePath = q) =
        chunks.filter fun c => c.filePath = q := by
  intro chunks
  induction chunks with
  | nil => intro _; rfl
  | cons c rest ih =>
      intro hid
      have ih' := ih fun d hd => hid d (List.mem_cons_of_mem c hd)
      rw [List.map_cons, List.filter_cons, List.filter_cons]
      by_cases hcb : c.chunkId = b.chunkId
      · rw [if_pos hcb]
        have hcq : ¬ c.filePath = q := fun hcq =>
          hid c (List.mem_cons_self c rest) hcq (Eq.symm hcb)
        rw [if_neg (by simp [hbq]), if_neg (by simp [hcq])]
        exact ih'
      · rw [if_neg hcb]
        by_cases hcq : c.filePath = q
        · rw [if_pos (by simp [hcq]), if_pos (by simp [hcq]), ih']
        · rw [if_neg (by simp [hcq]), if_neg (by simp [hcq])]
          exact ih'

theorem filter_upsertChunkRow_ne (chunks : List ChunkRecord) (b : ChunkRecord)
    (q : String) (hbq : ¬ b.filePath = q)
    (hid : ∀ c ∈ chunks, c.filePath = q → ¬ b.chunkId = c.chunkId) :
    ((upsertChunkRow chunks b).filter fun c => c.filePath = q) =
      chunks.filter fun c => c.filePath = q := by
  unfold upsertChunkRow
  split
  · exact filter_map_replace_ne b q hbq chunks hid
  · rw [List.filter_append]
    have hb : ([b].filter fun c => c.filePath = q) = [] := by
      simp [List.filter_cons, hbq]
    rw [hb, List.append_nil]

theorem filter_foldl_upsertChunkRow_ne (q : String) :
    ∀ batch chunks : List ChunkRecord,
      (∀ b ∈ batch, ¬ b.filePath = q) →
      (∀ b ∈ batch, ∀ c ∈ chunks, c.filePath = q → ¬ b.chunkId = c.chunkId) →
      ((batch.foldl upsertChunkRow chunks).filter fun c => c.filePath = q) =
        chunks.filter fun c => c.filePath = q := by
  intro batch
  induction batch with
  | nil => intro chunks _ _; rfl
  | cons b rest ih =>
      intro chunks hbq hid
      rw [List.foldl_cons]
      have hstep := filter_upsertChunkRow_ne chunks b q
        (hbq b (List.mem_cons_self b rest)) (hid b (List.mem_cons_self b rest))
      have hid2 : ∀ b2 ∈ rest, ∀ c ∈ upsertChunkRow chunks b,
          c.filePath = q → ¬ b2.chunkId = c.chunkId := by
        intro b2 hb2 c hc hcq
        rcases mem_upsertChunkRow chunks b c hc with hcm | hcm
        · exact hid b2 (List.mem_cons_of_mem b hb2) c hcm hcq
        · refine absurd hcq ?_
          rw [hcm]
          exact hbq b (List.mem_cons_self b rest)
      rw [ih (upsertChunkRow chunks b)
        (fun b2 hb2 => hbq b2 (List.mem_cons_of_mem b hb2)) hid2, hstep]

theorem upsertChunks_owned (owner : String → String) (σ : StoreState)
    (batch : List ChunkRecord) (hσ : storeOwned owner σ)
    (hb : ∀ b ∈ batch, owner b.chunkId = b.filePath) :
    storeOwned owner (upsertChunks σ batch) := by
  intro c hc
  rcases mem_foldl_upsertChunkRow batch σ.chunks c hc with hm | hm
  · exact hσ c hm
  · exact hb c hm

theorem deleteChunksByIds_owned (owner : String → String) (σ : StoreState)
    (ids : List String) (hσ : storeOwned owner σ) :
    storeOwned owner (deleteChunksByIds σ ids) := by
  intro c hc
  exact hσ c (List.mem_filter.mp hc).1

theorem upsertChunks_frame (σ : StoreState) (batch : List ChunkRecord)
    (path q : String) (hq : ¬ q = path)
    (hbatch : ∀ b ∈ batch, b.filePath = path)
    (hid : ∀ b ∈ batch, ∀ c ∈ σ.chunks, c.filePath = q →
      ¬ b.chunkId = c.chunkId) :
    mapGet (upsertChunks σ batch).files q = mapGet σ.files q ∧
    loadChunksByFile (upsertChunks σ batch) q = loadChunksByFile σ q := by
  constructor
  · refine mapGet_foldl_mapSet_frame _ _ σ.files q ?_
    intro p hp
    rcases List.mem_map.mp (List.mem_dedup.mp hp) with ⟨b, hb, hbp⟩
    rw [← hbp, hbatch b hb]
    exact fun hk => hq (Eq.symm hk)
  · exact filter_foldl_upsertChunkRow_ne q batch σ.chunks
      (fun b hb => by
        rw [hbatch b hb]
        exact fun hk => hq (Eq.symm hk))
      hid

theorem upsertChunks_files_self (σ : StoreState) (batch : List ChunkRecord)
    (path : String) (mt : ℚ) (hne : batch ≠ [])
    (hall : ∀ b ∈ batch, b.filePath = path)
    (hmt : ∀ b ∈ batch, b.mtime = mt) :
    ∃ st, mapGet (upsertChunks σ batch).files path = some st ∧
      st.mtime = mt := by
  have hpaths : (batch.map fun chunk => chunk.filePath).dedup = [path] := by
    refine dedup_const _ path ?_ ?_
    · intro hmap
      exact hne (List.map_eq_nil.mp hmap)
    · intro y hy
      rcases List.mem_map.mp hy with ⟨b, hb, hby⟩
      rw [← hby]
      exact hall b hb
  have hfilter : (batch.filter fun chunk => chunk.filePath = path) = batch :=
    List.filter_eq_self.mpr fun b hb => by simp [hall b hb]
  simp only [upsertChunks]
  rw [hpaths, List.foldl_cons, List.foldl_nil, hfilter]
  refine ⟨_, mapGet_mapSet_self σ.files path _, ?_⟩
  show listMaxQ (batch.map fun chunk => chunk.mtime) = mt
  refine listMaxQ_const _ mt ?_ ?_
  · intro hmap
    exact hne (List.map_eq_nil.mp hmap)
  · intro y hy
    rcases List.mem_map.mp hy with ⟨b, hb, hby⟩
    rw [← hby]
    exact hmt b hb

theorem deleteChunksByIds_frame (σ : StoreState) (ids : List String)
    (q : String)
    (hids : ∀ id ∈ ids, ∀ c ∈ σ.chunks, c.filePath = q →
      ¬ c.chunkId = id) :
    mapGet (deleteChunksByIds σ ids).files q = mapGet σ.files q ∧
    loadChunksByFile (deleteChunksByIds σ ids) q = loadChunksByFile σ q := by
  refine ⟨rfl, ?_⟩
  refine filter_filter_of_imp σ.chunks _ _ ?_
  intro c hc hcq
  have hq : c.filePath = q := of_decide_eq_true hcq
  refine decide_eq_true ?_
  intro hcon
  have hmem : c.chunkId ∈ ids := by
    simpa [List.contains, List.elem_eq_mem] using hcon
  exact hids c.chunkId hmem c hc hq rfl

theorem diffChunks_nextChunks_fields (existing : List ChunkRecord) :
    ∀ chunks : List ChunkRecord, ∀ c ∈ (diffChunks existing chunks).1,
      ∃ c0 ∈ chunks, c.filePath = c0.filePath ∧ c.mtime = c0.mtime ∧
        c.chunkId = c0.chunkId := by
  intro chunks
  induction chunks with
  | nil =>
      intro c hc
      exact absurd hc (List.not_mem_nil c)
  | cons chunk rest ih =>
      intro c hc
      simp only [diffChunks] at hc
      cases hf : findStoredChunk existing chunk.chunkId with
      | some prior =>
          simp only [hf] at hc
          by_cases hh : prior.contentHash = chunk.contentHash
          · rw [if_pos hh] at hc
            rcases List.mem_cons.mp hc with hc1 | hc1
            · refine ⟨chunk, List.mem_cons_self chunk rest, ?_⟩
              rw [hc1]
              exact ⟨rfl, rfl, rfl⟩
            · rcases ih c hc1 with ⟨c0, hc0, hfields⟩
              exact ⟨c0, List.mem_cons_of_mem chunk hc0, hfields⟩
          · rw [if_neg hh] at hc
            rcases ih c hc with ⟨c0, hc0, hfields⟩
            exact ⟨c0, List.mem_cons_of_mem chunk hc0, hfields⟩
      | none =>
          simp only [hf] at hc
          rcases ih c hc with ⟨c0, hc0, hfields⟩
          exact ⟨c0, List.mem_cons_of_mem chunk hc0, hfields⟩

theorem diffChunks_toEmbed_mem (existing : List ChunkRecord) :
    ∀ chunks : List ChunkRecord, ∀ c ∈ (diffChunks existing chunks).2,
      c ∈ chunks := by
  intro chunks
  induction chunks with
  | nil =>
      intro c hc
      exact absurd hc (List.not_mem_nil c)
  | cons chunk rest ih =>
      intro c hc
      simp only [diffChunks] at hc
      cases hf : findStoredChunk existing chunk.chunkId with
      | some prior =>
          simp only [hf] at hc
          by_cases hh : prior.contentHash = chunk.contentHash
          · rw [if_pos hh] at hc
            exact List.mem_cons_of_mem chunk (ih c hc)
          · rw [if_neg hh] at hc
            rcases List.mem_cons.mp hc with hc1 | hc1
            · rw [hc1]
              exact List.mem_cons_self chunk rest
            · exact List.mem_cons_of_mem chunk (ih c hc1)
      | none =>
          simp only [hf] at hc
          rcases List.mem_cons.mp hc with hc1 | hc1
          · rw [hc1]
            exact List.mem_cons_self chunk rest
          · exact List.mem_cons_of_mem chunk (ih c hc1)

theorem diffChunks_length (existing : List ChunkRecord) :
    ∀ chunks : List ChunkRecord,
      (diffChunks existing chunks).1.length +
        (diffChunks existing chunks).2.length = chunks.length := by
  intro chunks
  induction chunks with
  | nil => rfl
  | cons chunk rest ih =>
      simp only [diffChunks]
      cases hf : findStoredChunk existing chunk.chunkId with
      | some prior =>
          simp only [hf]
          by_cases hh : prior.contentHash = chunk.contentHash
          · rw [if_pos hh]
            simp only [List.length_cons]
            omega
          · rw [if_neg hh]
            simp only [List.length_cons]
            omega
      | none =>
          simp only [hf, List.length_cons]
          omega

theorem filterMap_length_of_isSome (f : α → Option γ) :
    ∀ l : List α, (∀ x ∈ l, (f x).isSome = true) →
      (l.filterMap f).length = l.length := by
  intro l
  induction l with
  | nil => intro _; rfl
  | cons x rest ih =>
      intro h
      rcases Option.isSome_iff_exists.mp (h x (List.mem_cons_self x rest))
        with ⟨v, hv⟩
      simp only [List.filterMap_cons, hv, List.length_cons]
      rw [ih fun y hy => h y (List.mem_cons_of_mem x hy)]

theorem mapGet_foldl_mapSet_isSome (results : List (String × List ℚ)) :
    ∀ (m : List (String × List ℚ)) (k : String),
      k ∈ results.map Prod.fst ∨ (mapGet m k).isSome = true →
      (mapGet (results.foldl (fun acc r => mapSet acc r.1 r.2) m) k).isSome =
        true := by
  induction results with
  | nil =>
      intro m k h
      rcases h with h | h
      · exact absurd h (List.not_mem_nil k)
      · exact h
  | cons r rest ih =>
      intro m k h
      rw [List.foldl_cons]
      by_cases hk : k = r.1
      · refine ih (mapSet m r.1 r.2) k (Or.inr ?_)
        rw [hk, mapGet_mapSet_self]
        rfl
      · rcases h with h | h
        · rw [List.map_cons] at h
          rcases List.mem_cons.mp h with h1 | h1
          · exact absurd h1 hk
          · exact ih _ k (Or.inl h1)
        · refine ih _ k (Or.inr ?_)
          rw [mapGet_mapSet_ne m r.1 k r.2 hk]
          exact h

theorem embeddingMapOf_isSome (results : List (String × List ℚ)) (k : String)
    (h : k ∈ results.map Prod.fst) :
    (mapGet (embeddingMapOf results) k).isSome = true :=
  mapGet_foldl_mapSet_isSome results [] k (Or.inl h)

theorem upsertChunks_nil (σ : StoreState) : upsertChunks σ [] = σ := rfl

theorem deleteChunksForFile_frame (σ : StoreState) (path q : String)
    (h : ¬ path = q) :
    mapGet (deleteChunksForFile σ path).files q = mapGet σ.files q ∧
    loadChunksByFile (deleteChunksForFile σ path) q =
      loadChunksByFile σ q := by
  constructor
  · exact mapGet_filter_ne σ.files path q fun hk => h (Eq.symm hk)
  · refine filter_filter_of_imp σ.chunks _ _ ?_
    intro c _ hcq
    have hq : c.filePath = q := of_decide_eq_true hcq
    refine decide_eq_true ?_
    intro hk
    refine h ?_
    rw [← hk]
    exact hq

theorem persistFileFinish_ok_spec (owner : String → String) (σ : StoreState)
    (path : String) (mt : ℚ) (chunks nextChunks : List ChunkRecord)
    (batches : List (List (String × String))) (σ2 : StoreState) (n : Nat)
    (b : List (List (String × String)))
    (hσ : storeOwned owner σ)
    (hnext : ∀ c ∈ nextChunks, c.filePath = path ∧ c.mtime = mt ∧
      owner c.chunkId = path)
    (h : persistFileFinish σ path chunks nextChunks batches =
      Except.ok (σ2, n, b)) :
    b = batches ∧ storeOwned owner σ2 ∧
    (∀ q, ¬ q = path → mapGet σ2.files q = mapGet σ.files q ∧
      loadChunksByFile σ2 q = loadChunksByFile σ q) ∧
    (chunks = [] → nextChunks = [] → loadChunksByFile σ2 path = [] ∧
      mapGet σ2.files path = mapGet σ.files path) ∧
    (nextChunks ≠ [] → ∃ st, mapGet σ2.files path = some st ∧
      st.mtime = mt) := by
  have hSmem : ∀ id ∈ ((loadChunksByFile σ path).map fun chunk =>
        chunk.chunkId).filter
        (fun chunkId => ¬ chunks.any fun chunk => chunk.chunkId = chunkId),
      ∃ c ∈ σ.chunks, c.filePath = path ∧ c.chunkId = id := by
    intro id hid
    have hid2 := List.mem_filter.mp hid
    rcases List.mem_map.mp hid2.1 with ⟨c, hc, hcid⟩
    have hcf := List.mem_filter.mp hc
    exact ⟨c, hcf.1, of_decide_eq_true hcf.2, hcid⟩
  have hScover : chunks = [] → ∀ c ∈ σ.chunks, c.filePath = path →
      c.chunkId ∈ ((loadChunksByFile σ path).map fun chunk =>
        chunk.chunkId).filter
        (fun chunkId => ¬ chunks.any fun chunk => chunk.chunkId = chunkId) := by
    intro hce c hc hcp
    refine List.mem_filter.mpr ⟨List.mem_map.mpr
      ⟨c, List.mem_filter.mpr ⟨hc, decide_eq_true hcp⟩, rfl⟩, ?_⟩
    rw [hce]
    simp
  cases hfind : nextChunks.find? fun chunk => chunk.embedding = none with
  | some c0 =>
      simp only [persistFileFinish, hfind] at h
      exact Except.noConfusion h
  | none =>
      simp only [persistFileFinish, hfind, Except.ok.injEq,
        Prod.mk.injEq] at h
      rcases h with ⟨hA, _, hC⟩
      -- Facts about the intermediate state after the stale deletion.
      have hσ1owned : storeOwned owner
          (if 0 < (((loadChunksByFile σ path).map fun chunk =>
            chunk.chunkId).filter fun chunkId =>
              ¬ chunks.any fun chunk => chunk.chunkId = chunkId).length then
            deleteChunksByIds σ (((loadChunksByFile σ path).map fun chunk =>
              chunk.chunkId).filter fun chunkId =>
                ¬ chunks.any fun chunk => chunk.chunkId = chunkId)
          else σ) := by
        split
        · exact deleteChunksByIds_owned owner σ _ hσ
        · exact hσ
      have hσ1frame : ∀ q, ¬ q = path →
          mapGet (if 0 < (((loadChunksByFile σ path).map fun chunk =>
            chunk.chunkId).filter fun chunkId =>
              ¬ chunks.any fun chunk => chunk.chunkId = chunkId).length then
            deleteChunksByIds σ (((loadChunksByFile σ path).map fun chunk =>
              chunk.chunkId).filter fun chunkId =>
                ¬ chunks.any fun chunk => chunk.chunkId = chunkId)
          else σ).files q = mapGet σ.files q ∧
          loadChunksByFile (if 0 < (((loadChunksByFile σ path).map
            fun chunk => chunk.chunkId).filter fun chunkId =>
              ¬ chunks.any fun chunk => chunk.chunkId = chunkId).length then
            deleteChunksByIds σ (((loadChunksByFile σ path).map fun chunk =>
              chunk.chunkId).filter fun chunkId =>
                ¬ chunks.any fun chunk => chunk.chunkId = chunkId)
          else σ) q = loadChunksByFile σ q := by
        intro q hq
        split
        · refine deleteChunksByIds_frame σ _ q ?_
          intro id hid c hc hcq hcid
          rcases hSmem id hid with ⟨c1, hc1, hc1p, hc1id⟩
          refine hq ?_
          rw [← hcq, ← hσ c hc, hcid, ← hc1id, hσ c1 hc1, hc1p]
        · exact ⟨rfl, rfl⟩
      have hσ1files : (if 0 < (((loadChunksByFile σ path).map fun chunk =>
            chunk.chunkId).filter fun chunkId =>
              ¬ chunks.any fun chunk => chunk.chunkId = chunkId).length then
            deleteChunksByIds σ (((loadChunksByFile σ path).map fun chunk =>
              chunk.chunkId).filter fun chunkId =>
                ¬ chunks.any fun chunk => chunk.chunkId = chunkId)
          else σ).files = σ.files := by
        split
        · rfl
        · rfl
      have hσ1empty : chunks = [] →
          loadChunksByFile (if 0 < (((loadChunksByFile σ path).map
            fun chunk => chunk.chunkId).filter fun chunkId =>
              ¬ chunks.any fun chunk => chunk.chunkId = chunkId).length then
            deleteChunksByIds σ (((loadChunksByFile σ path).map fun chunk =>
              chunk.chunkId).filter fun chunkId =>
                ¬ chunks.any fun chunk => chunk.chunkId = chunkId)
          else σ) path = [] := by
        intro hce
        split
        · refine List.filter_eq_nil.mpr ?_
          intro c hc hcp
          have hcm := List.mem_filter.mp hc
          have hcpath : c.filePath = path := of_decide_eq_true hcp
          have hin := hScover hce c hcm.1 hcpath
          have hcontains : (((loadChunksByFile σ path).map fun chunk =>
              chunk.chunkId).filter fun chunkId =>
                ¬ chunks.any fun chunk => chunk.chunkId = chunkId).contains
              c.chunkId = true := by
            simpa [List.contains, List.elem_eq_mem] using hin
          have hkeep := of_decide_eq_true hcm.2
          exact hkeep hcontains
        · rename_i hlen
          refine List.filter_eq_nil.mpr ?_
          intro c hc hcp
          have hcpath : c.filePath = path := of_decide_eq_true hcp
          have hin := hScover hce c hc hcpath
          have hnil : (((loadChunksByFile σ path).map fun chunk =>
              chunk.chunkId).filter fun chunkId =>
                ¬ chunks.any fun chunk => chunk.chunkId = chunkId) = [] := by
            cases hcase : (((loadChunksByFile σ path).map fun chunk =>
                chunk.chunkId).filter fun chunkId =>
                  ¬ chunks.any fun chunk => chunk.chunkId = chunkId) with
            | nil => rfl
            | cons a t =>
                refine absurd ?_ hlen
                rw [hcase]
                simp
          rw [hnil] at hin
          exact absurd hin (List.not_mem_nil c.chunkId)
      refine ⟨Eq.symm hC, ?_, ?_, ?_, ?_⟩
      · rw [← hA]
        refine upsertChunks_owned owner _ nextChunks hσ1owned ?_
        intro c hc
        rw [(hnext c hc).1]
        exact (hnext c hc).2.2
      · intro q hq
        have hid2 : ∀ c ∈ nextChunks,
            ∀ d ∈ (if 0 < (((loadChunksByFile σ path).map fun chunk =>
              chunk.chunkId).filter fun chunkId =>
                ¬ chunks.any fun chunk => chunk.chunkId = chunkId).length then
              deleteChunksByIds σ (((loadChunksByFile σ path).map fun chunk =>
                chunk.chunkId).filter fun chunkId =>
                  ¬ chunks.any fun chunk => chunk.chunkId = chunkId)
            else σ).chunks, d.filePath = q → ¬ c.chunkId = d.chunkId := by
          intro c hc d hd hdq hcd
          refine hq ?_
          rw [← hdq, ← hσ1owned d hd, ← hcd, (hnext c hc).2.2]
        have hup := upsertChunks_frame _ nextChunks path q hq
          (fun c hc => (hnext c hc).1) hid2
        rw [← hA, hup.1, hup.2]
        exact hσ1frame q hq
      · intro hce hne
        rw [← hA, hne, upsertChunks_nil]
        exact ⟨hσ1empty hce, by rw [hσ1files]⟩
      · intro hne
        rw [← hA]
        exact upsertChunks_files_self _ nextChunks path mt hne
          (fun c hc => (hnext c hc).1) fun c hc => (hnext c hc).2.1

theorem persistFile_ok_spec (owner : String → String) (embedFn : EmbedFn)
    (σ : StoreState) (path : String) (mt : ℚ) (chunks : List ChunkRecord)
    (σ2 : StoreState) (n : Nat) (b : List (List (String × String)))
    (hσ : storeOwned owner σ)
    (hch : ∀ c ∈ chunks, c.filePath = path ∧ c.mtime = mt ∧
      owner c.chunkId = path)
    (hcov : embedCovering embedFn)
    (h : persistFile embedFn σ path chunks = Except.ok (σ2, n, b)) :
    storeOwned owner σ2 ∧
    (∀ q, ¬ q = path → mapGet σ2.files q = mapGet σ.files q ∧
      loadChunksByFile σ2 q = loadChunksByFile σ q) ∧
    (chunks = [] → loadChunksByFile σ2 path = [] ∧
      mapGet σ2.files path = mapGet σ.files path) ∧
    (chunks ≠ [] → ∃ st, mapGet σ2.files path = some st ∧
      st.mtime = mt) := by
  have hnext : ∀ c ∈ (diffChunks (loadChunksByFile σ path) chunks).1,
      c.filePath = path ∧ c.mtime = mt ∧ owner c.chunkId = path := by
    intro c hc
    rcases diffChunks_nextChunks_fields (loadChunksByFile σ path) chunks c hc
      with ⟨c0, hc0, hf1, hf2, hf3⟩
    rcases hch c0 hc0 with ⟨g1, g2, g3⟩
    exact ⟨by rw [hf1, g1], by rw [hf2, g2], by rw [hf3, g3]⟩
  by_cases hlen : (diffChunks (loadChunksByFile σ path) chunks).2.length = 0
  · have heq : persistFile embedFn σ path chunks =
        persistFileFinish σ path chunks
          (diffChunks (loadChunksByFile σ path) chunks).1 [] := by
      simp only [persistFile]
      rw [if_pos hlen]
    rw [heq] at h
    have hspec := persistFileFinish_ok_spec owner σ path mt chunks _ [] σ2 n b
      hσ hnext h
    refine ⟨hspec.2.1, hspec.2.2.1, ?_, ?_⟩
    · intro hce
      subst hce
      exact hspec.2.2.2.1 rfl rfl
    · intro hne
      refine hspec.2.2.2.2 ?_
      intro hnil
      have hl := diffChunks_length (loadChunksByFile σ path) chunks
      rw [hnil] at hl
      simp only [List.length_nil] at hl
      refine hne (List.length_eq_zero.mp ?_)
      omega
  · have heq : persistFile embedFn σ path chunks =
        (match embedFn ((diffChunks (loadChunksByFile σ path) chunks).2.map
            fun chunk => (chunk.chunkId, chunk.representation)) with
        | Except.error message =>
            Except.error (IndexError.embedFailed message)
        | Except.ok results =>
            persistFileFinish σ path chunks
              ((diffChunks (loadChunksByFile σ path) chunks).1 ++
                ((diffChunks (loadChunksByFile σ path) chunks).2.filterMap
                  fun chunk => (mapGet (embeddingMapOf results)
                    chunk.chunkId).map fun vector =>
                      { chunk with embedding := some vector }))
              [(diffChunks (loadChunksByFile σ path) chunks).2.map
                fun chunk => (chunk.chunkId, chunk.representation)]) := by
      simp only [persistFile]
      rw [if_neg hlen]
    rw [heq] at h
    rcases hcov ((diffChunks (loadChunksByFile σ path) chunks).2.map
      fun chunk => (chunk.chunkId, chunk.representation))
      with ⟨results, hres, hcover⟩
    simp only [hres] at h
    have hwith : ∀ c ∈ (diffChunks (loadChunksByFile σ path) chunks).2.filterMap
        (fun chunk => (mapGet (embeddingMapOf results) chunk.chunkId).map
          fun vector => { chunk with embedding := some vector }),
        c.filePath = path ∧ c.mtime = mt ∧ owner c.chunkId = path := by
      intro c hc
      rcases List.mem_filterMap.mp hc with ⟨a, ha, hfa⟩
      rcases Option.map_eq_some'.mp hfa with ⟨v, _, hva⟩
      have ha2 := hch a (diffChunks_toEmbed_mem _ chunks a ha)
      rw [← hva]
      exact ⟨ha2.1, ha2.2.1, ha2.2.2⟩
    have hspec := persistFileFinish_ok_spec owner σ path mt chunks _ _ σ2 n b
      hσ
      (by
        intro c hc
        rcases List.mem_append.mp hc with hc1 | hc1
        · exact hnext c hc1
        · exact hwith c hc1)
      h
    refine ⟨hspec.2.1, hspec.2.2.1, ?_, ?_⟩
    · intro hce
      subst hce
      exact absurd rfl hlen
    · intro hne
      refine hspec.2.2.2.2 ?_
      have hwlen : ((diffChunks (loadChunksByFile σ path) chunks).2.filterMap
          fun chunk => (mapGet (embeddingMapOf results) chunk.chunkId).map
            fun vector => { chunk with embedding := some vector }).length =
          (diffChunks (loadChunksByFile σ path) chunks).2.length := by
        refine filterMap_length_of_isSome _ _ ?_
        intro a ha
        have hmem : (mapGet (embeddingMapOf results) a.chunkId).isSome =
            true := hcover (a.chunkId, a.representation)
          (List.mem_map.mpr ⟨a, ha, rfl⟩)
        cases hmg : mapGet (embeddingMapOf results) a.chunkId with
        | none =>
            rw [hmg] at hmem
            exact absurd hmem (by simp)
        | some v => rfl
      intro hnil
      have hlist := congrArg List.length hnil
      rw [List.length_append, hwlen, List.length_nil] at hlist
      exact hlen (by omega)

theorem processFile_noskip_eq (chunkFn : VaultFile → List ChunkRecord)
    (embedFn : EmbedFn) (σ : StoreState) (stats : IndexStats)
    (trace : IndexTrace) (f : VaultFile)
    (hskip : (match mapGet σ.files f.relative with
      | some previous => decide (previous.mtime = f.mtime)
      | none => false) = false) :
    processFile chunkFn embedFn σ stats trace f =
      (match persistFile embedFn σ f.relative (chunkFn f) with
      | Except.error e => Except.error e
      | Except.ok (σ2, deletedChunks, batches) =>
          Except.ok (σ2,
            { stats with
              processed := stats.processed + 1
              chunksUpserted := stats.chunksUpserted + (chunkFn f).length
              chunksDeleted := stats.chunksDeleted + deletedChunks },
            { reads := trace.reads ++ [f.relative]
              chunked := trace.chunked ++ [f.relative]
              embedBatches := trace.embedBatches ++ batches })) := by
  simp only [processFile, hskip, Bool.false_eq_true, if_false]

theorem processFile_empty_eq (chunkFn : VaultFile → List ChunkRecord)
    (embedFn : EmbedFn) (σ : StoreState) (stats : IndexStats)
    (trace : IndexTrace) (f : VaultFile)
    (hskip : (match mapGet σ.files f.relative with
      | some previous => decide (previous.mtime = f.mtime)
      | none => false) = false)
    (hce : chunkFn f = []) (hload : loadChunksByFile σ f.relative = []) :
    processFile chunkFn embedFn σ stats trace f = Except.ok (σ,
      { stats with
        processed := stats.processed + 1
        chunksUpserted := stats.chunksUpserted + (chunkFn f).length
        chunksDeleted := stats.chunksDeleted + 0 },
      { trace with
        reads := trace.reads ++ [f.relative]
        chunked := trace.chunked ++ [f.relative] }) := by
  rw [processFile_noskip_eq chunkFn embedFn σ stats trace f hskip]
  have hpf : persistFile embedFn σ f.relative (chunkFn f) =
      Except.ok (σ, 0, []) := by
    rw [hce]
    simp only [persistFile, diffChunks, List.length_nil]
    rw [if_pos trivial]
    simp only [persistFileFinish, hload, List.map_nil, List.filter_nil,
      List.length_nil, List.find?_nil]
    rw [if_neg (Nat.lt_irrefl 0), upsertChunks_nil]
  rw [hpf]
  simp only [List.append_nil]

theorem readyFile_congr (chunkFn : VaultFile → List ChunkRecord)
    (σ1 σ2 : StoreState) (f : VaultFile)
    (h1 : mapGet σ2.files f.relative = mapGet σ1.files f.relative)
    (h2 : loadChunksByFile σ2 f.relative = loadChunksByFile σ1 f.relative)
    (h : readyFile chunkFn σ1 f) : readyFile chunkFn σ2 f := by
  unfold readyFile at h ⊢
  rw [h1, h2]
  exact h

theorem processFile_ok_spec (owner : String → String)
    (chunkFn : VaultFile → List ChunkRecord) (embedFn : EmbedFn)
    (σ : StoreState) (stats : IndexStats) (trace : IndexTrace) (f : VaultFile)
    (σ2 : StoreState) (stats2 : IndexStats) (trace2 : IndexTrace)
    (hσ : storeOwned owner σ)
    (hch : chunksStamped owner chunkFn f)
    (hcov : embedCovering embedFn)
    (h : processFile chunkFn embedFn σ stats trace f =
      Except.ok (σ2, stats2, trace2)) :
    storeOwned owner σ2 ∧ readyFile chunkFn σ2 f ∧
    ∀ q, ¬ q = f.relative → mapGet σ2.files q = mapGet σ.files q ∧
      loadChunksByFile σ2 q = loadChunksByFile σ q := by
  cases hm : mapGet σ.files f.relative with
  | some prev =>
      by_cases hpm : prev.mtime = f.mtime
      · have heq : processFile chunkFn embedFn σ stats trace f =
            Except.ok (σ, { stats with skipped := stats.skipped + 1 },
              trace) := by
          simp only [processFile, hm]
          rw [if_pos (decide_eq_true hpm)]
        rw [heq] at h
        simp only [Except.ok.injEq, Prod.mk.injEq] at h
        rcases h with ⟨h1, _, _⟩
        subst h1
        exact ⟨hσ, Or.inl ⟨prev, hm, hpm⟩, fun q _ => ⟨rfl, rfl⟩⟩
      · have hskip : (match mapGet σ.files f.relative with
            | some previous => decide (previous.mtime = f.mtime)
            | none => false) = false := by
          rw [hm]
          simp [hpm]
        rw [processFile_noskip_eq chunkFn embedFn σ stats trace f hskip] at h
        cases hp : persistFile embedFn σ f.relative (chunkFn f) with
        | error e =>
            simp only [hp] at h
            exact Except.noConfusion h
        | ok triple =>
            obtain ⟨σp, dp, bp⟩ := triple
            simp only [hp, Except.ok.injEq, Prod.mk.injEq] at h
            rcases h with ⟨h1, _, _⟩
            subst h1
            have hps := persistFile_ok_spec owner embedFn σ f.relative f.mtime
              (chunkFn f) σp dp bp hσ hch hcov hp
            refine ⟨hps.1, ?_, hps.2.1⟩
            by_cases hce : chunkFn f = []
            · exact Or.inr ⟨hce, (hps.2.2.1 hce).1⟩
            · exact Or.inl (hps.2.2.2 hce)
  | none =>
      have hskip : (match mapGet σ.files f.relative with
          | some previous => decide (previous.mtime = f.mtime)
          | none => false) = false := by
        rw [hm]
      rw [processFile_noskip_eq chunkFn embedFn σ stats trace f hskip] at h
      cases hp : persistFile embedFn σ f.relative (chunkFn f) with
      | error e =>
          simp only [hp] at h
          exact Except.noConfusion h
      | ok triple =>
          obtain ⟨σp, dp, bp⟩ := triple
          simp only [hp, Except.ok.injEq, Prod.mk.injEq] at h
          rcases h with ⟨h1, _, _⟩
          subst h1
          have hps := persistFile_ok_spec owner embedFn σ f.relative f.mtime
            (chunkFn f) σp dp bp hσ hch hcov hp
          refine ⟨hps.1, ?_, hps.2.1⟩
          by_cases hce : chunkFn f = []
          · exact Or.inr ⟨hce, (hps.2.2.1 hce).1⟩
          · exact Or.inl (hps.2.2.2 hce)

theorem processFile_ready_noop (chunkFn : VaultFile → List ChunkRecord)
    (embedFn : EmbedFn) (σ : StoreState) (stats : IndexStats)
    (trace : IndexTrace) (f : VaultFile)
    (hready : readyFile chunkFn σ f) :
    ∃ stats2,
      (processFile chunkFn embedFn σ stats trace f =
          Except.ok (σ, stats2, trace) ∧
        (∃ st, mapGet σ.files f.relative = some st ∧ st.mtime = f.mtime)) ∨
      (processFile chunkFn embedFn σ stats trace f =
          Except.ok (σ, stats2,
            { trace with
              reads := trace.reads ++ [f.relative]
              chunked := trace.chunked ++ [f.relative] }) ∧
        ¬ ∃ st, mapGet σ.files f.relative = some st ∧
          st.mtime = f.mtime) := by
  by_cases hset : ∃ st, mapGet σ.files f.relative = some st ∧
      st.mtime = f.mtime
  · rcases hset with ⟨st, hst, hstm⟩
    refine ⟨{ stats with skipped := stats.skipped + 1 },
      Or.inl ⟨?_, st, hst, hstm⟩⟩
    simp only [processFile, hst]
    rw [if_pos (decide_eq_true hstm)]
  · have hskip : (match mapGet σ.files f.relative with
        | some previous => decide (previous.mtime = f.mtime)
        | none => false) = false := by
      cases hm : mapGet σ.files f.relative with
      | some prev =>
          by_cases hpm : prev.mtime = f.mtime
          · exact absurd ⟨prev, hm, hpm⟩ hset
          · simp [hpm]
      | none => rfl
    rcases hready with hsettled | ⟨hce, hload⟩
    · exact absurd hsettled hset
    · exact ⟨_, Or.inr ⟨processFile_empty_eq chunkFn embedFn σ stats trace f
        hskip hce hload, hset⟩⟩

theorem contains_of_mem [DecidableEq α] (l : List α) (a : α) (h : a ∈ l) :
    l.contains a = true := by
  simpa [List.contains, List.elem_eq_mem] using h

theorem runFiles_frame (owner : String → String)
    (chunkFn : VaultFile → List ChunkRecord) (embedFn : EmbedFn) :
    ∀ (files : List VaultFile) (σ : StoreState) (stats : IndexStats)
      (trace : IndexTrace) (σ2 : StoreState) (stats2 : IndexStats)
      (trace2 : IndexTrace) (q : String),
      storeOwned owner σ →
      (∀ f ∈ files, chunksStamped owner chunkFn f) →
      embedCovering embedFn →
      (∀ f ∈ files, ¬ f.relative = q) →
      runFiles chunkFn embedFn files σ stats trace =
        Except.ok (σ2, stats2, trace2) →
      storeOwned owner σ2 ∧ mapGet σ2.files q = mapGet σ.files q ∧
        loadChunksByFile σ2 q = loadChunksByFile σ q := by
  intro files
  induction files with
  | nil =>
      intro σ stats trace σ2 stats2 trace2 q hσ _ _ _ h
      simp only [runFiles, Except.ok.injEq, Prod.mk.injEq] at h
      rcases h with ⟨h1, _, _⟩
      subst h1
      exact ⟨hσ, rfl, rfl⟩
  | cons g rest ih =>
      intro σ stats trace σ2 stats2 trace2 q hσ hch hcov hq h
      cases hp : processFile chunkFn embedFn σ stats trace g with
      | error e =>
          simp only [runFiles, hp] at h
          exact Except.noConfusion h
      | ok triple =>
          obtain ⟨σ1, stats1, trace1⟩ := triple
          simp only [runFiles, hp] at h
          have hg := processFile_ok_spec owner chunkFn embedFn σ stats trace g
            σ1 stats1 trace1 hσ (hch g (List.mem_cons_self g rest)) hcov hp
          have hrest := ih σ1 stats1 trace1 σ2 stats2 trace2 q hg.1
            (fun f hf => hch f (List.mem_cons_of_mem g hf)) hcov
            (fun f hf => hq f (List.mem_cons_of_mem g hf)) h
          have hgq := hg.2.2 q
            fun hk => hq g (List.mem_cons_self g rest) (Eq.symm hk)
          exact ⟨hrest.1, by rw [hrest.2.1, hgq.1],
            by rw [hrest.2.2, hgq.2]⟩

theorem runFiles_ready (owner : String → String)
    (chunkFn : VaultFile → List ChunkRecord) (embedFn : EmbedFn) :
    ∀ (files : List VaultFile) (σ : StoreState) (stats : IndexStats)
      (trace : IndexTrace) (σ2 : StoreState) (stats2 : IndexStats)
      (trace2 : IndexTrace),
      storeOwned owner σ →
      (∀ f ∈ files, chunksStamped owner chunkFn f) →
      embedCovering embedFn →
      (files.map fun f => f.relative).Nodup →
      runFiles chunkFn embedFn files σ stats trace =
        Except.ok (σ2, stats2, trace2) →
      storeOwned owner σ2 ∧ ∀ f ∈ files, readyFile chunkFn σ2 f := by
  intro files
  induction files with
  | nil =>
      intro σ stats trace σ2 stats2 trace2 hσ _ _ _ h
      simp only [runFiles, Except.ok.injEq, Prod.mk.injEq] at h
      rcases h with ⟨h1, _, _⟩
      subst h1
      exact ⟨hσ, fun f hf => absurd hf (List.not_mem_nil f)⟩
  | cons g rest ih =>
      intro σ stats trace σ2 stats2 trace2 hσ hch hcov hnd h
      rw [List.map_cons] at hnd
      have hnd2 := List.nodup_cons.mp hnd
      cases hp : processFile chunkFn embedFn σ stats trace g with
      | error e =>
          simp only [runFiles, hp] at h
          exact Except.noConfusion h
      | ok triple =>
          obtain ⟨σ1, stats1, trace1⟩ := triple
          simp only [runFiles, hp] at h
          have hg := processFile_ok_spec owner chunkFn embedFn σ stats trace g
            σ1 stats1 trace1 hσ (hch g (List.mem_cons_self g rest)) hcov hp
          have hfr := runFiles_frame owner chunkFn embedFn rest σ1 stats1
            trace1 σ2 stats2 trace2 g.relative hg.1
            (fun f hf => hch f (List.mem_cons_of_mem g hf)) hcov
            (fun f hf hfeq => hnd2.1 (List.mem_map.mpr ⟨f, hf, hfeq⟩)) h
          have hrest := ih σ1 stats1 trace1 σ2 stats2 trace2 hg.1
            (fun f hf => hch f (List.mem_cons_of_mem g hf)) hcov hnd2.2 h
          refine ⟨hrest.1, ?_⟩
          intro f hf
          rcases List.mem_cons.mp hf with rfl | hf1
          · exact readyFile_congr chunkFn σ1 σ2 f hfr.2.1 hfr.2.2 hg.2.1
          · exact hrest.2 f hf1

theorem reconcileStep_foldl_frame :
    ∀ (paths : List String) (acc : StoreState × IndexStats) (q : String),
      (∀ p ∈ paths, ¬ p = q) →
      mapGet (paths.foldl reconcileStep acc).1.files q =
        mapGet acc.1.files q ∧
      loadChunksByFile (paths.foldl reconcileStep acc).1 q =
        loadChunksByFile acc.1 q := by
  intro paths
  induction paths with
  | nil =>
      intro acc q _
      exact ⟨rfl, rfl⟩
  | cons p rest ih =>
      intro acc q h
      rw [List.foldl_cons]
      have hstep := deleteChunksForFile_frame acc.1 p q
        (h p (List.mem_cons_self p rest))
      have hrest := ih (reconcileStep acc p) q
        fun x hx => h x (List.mem_cons_of_mem p hx)
      exact ⟨by rw [hrest.1]; exact hstep.1, by rw [hrest.2]; exact hstep.2⟩

theorem reconcileRemovals_frame (σ : StoreState) (seen : List String)
    (stats : IndexStats) (q : String) (hq : q ∈ seen) :
    mapGet (reconcileRemovals σ seen stats).1.files q = mapGet σ.files q ∧
    loadChunksByFile (reconcileRemovals σ seen stats).1 q =
      loadChunksByFile σ q := by
  simp only [reconcileRemovals]
  refine reconcileStep_foldl_frame _ (σ, stats) q ?_
  intro p hp hpq
  have hpf := List.mem_filter.mp hp
  have hnc := of_decide_eq_true hpf.2
  refine hnc ?_
  rw [hpq]
  exact contains_of_mem seen q hq

theorem runFiles_ready_noop (chunkFn : VaultFile → List ChunkRecord)
    (embedFn : EmbedFn) :
    ∀ (files : List VaultFile) (σ : StoreState) (stats : IndexStats)
      (trace : IndexTrace),
      (∀ f ∈ files, readyFile chunkFn σ f) →
      ∃ stats2 trace2 adds,
        runFiles chunkFn embedFn files σ stats trace =
          Except.ok (σ, stats2, trace2) ∧
        trace2.embedBatches = trace.embedBatches ∧
        trace2.reads = trace.reads ++ adds ∧
        trace2.chunked = trace.chunked ++ adds ∧
        ∀ q ∈ adds, ∃ f ∈ files, f.relative = q ∧
          ¬ ∃ st, mapGet σ.files f.relative = some st ∧
            st.mtime = f.mtime := by
  intro files
  induction files with
  | nil =>
      intro σ stats trace _
      refine ⟨stats, trace, [], rfl, rfl, ?_, ?_, ?_⟩
      · rw [List.append_nil]
      · rw [List.append_nil]
      · intro q hq
        exact absurd hq (List.not_mem_nil q)
  | cons g rest ih =>
      intro σ stats trace hready
      rcases processFile_ready_noop chunkFn embedFn σ stats trace g
        (hready g (List.mem_cons_self g rest)) with ⟨stats1, hcase⟩
      rcases hcase with ⟨hp, _⟩ | ⟨hp, hnot⟩
      · rcases ih σ stats1 trace
          (fun f hf => hready f (List.mem_cons_of_mem g hf))
          with ⟨stats2, trace2, adds, hrun, heb, hrd, hck, hadds⟩
        refine ⟨stats2, trace2, adds, ?_, heb, hrd, hck, ?_⟩
        · simp only [runFiles, hp]
          exact hrun
        · intro q hq
          rcases hadds q hq with ⟨f, hf, hfq, hfns⟩
          exact ⟨f, List.mem_cons_of_mem g hf, hfq, hfns⟩
      · rcases ih σ stats1
          { trace with
            reads := trace.reads ++ [g.relative]
            chunked := trace.chunked ++ [g.relative] }
          (fun f hf => hready f (List.mem_cons_of_mem g hf))
          with ⟨stats2, trace2, adds, hrun, heb, hrd, hck, hadds⟩
        refine ⟨stats2, trace2, g.relative :: adds, ?_, heb, ?_, ?_, ?_⟩
        · simp only [runFiles, hp]
          exact hrun
        · rw [hrd]
          show (trace.reads ++ [g.relative]) ++ adds =
            trace.reads ++ (g.relative :: adds)
          rw [List.append_assoc]
          rfl
        · rw [hck]
          show (trace.chunked ++ [g.relative]) ++ adds =
            trace.chunked ++ (g.relative :: adds)
          rw [List.append_assoc]
          rfl
        · intro q hq
          rcases List.mem_cons.mp hq with hq1 | hq1
          · exact ⟨g, List.mem_cons_self g rest, Eq.symm hq1, hnot⟩
          · rcases hadds q hq1 with ⟨f, hf, hfq, hfns⟩
            exact ⟨f, List.mem_cons_of_mem g hf, hfq, hfns⟩

/-- C3: a second Indexer run over the same corpus with no source changes
performs zero embedding-adapter calls, and every file whose stored mtime
equals its current mtime is neither read nor chunked on that run.  The
hypotheses state the contracts the source relies on: chunkMarkdown
stamps chunks with their file's path and mtime and derives chunk ids
from the path, the walked paths are distinct, and the adapter returns a
vector for every requested id. -/
theorem indexer_second_run_no_embedding (owner : String → String)
    (chunkFn : VaultFile → List ChunkRecord) (embedFn : EmbedFn)
    (files : List VaultFile) (σ0 : StoreState)
    (r1 : StoreState × IndexStats × IndexTrace)
    (hσ0 : storeOwned owner σ0)
    (hch : ∀ f ∈ files, chunksStamped owner chunkFn f)
    (hcov : embedCovering embedFn)
    (hnodup : (files.map fun f => f.relative).Nodup)
    (h1 : runIndexer chunkFn embedFn files σ0 = Except.ok r1) :
    ∃ r2, runIndexer chunkFn embedFn files r1.1 = Except.ok r2 ∧
      r2.2.2.embedBatches = [] ∧
      ∀ f ∈ files, (∃ st, mapGet r1.1.files f.relative = some st ∧
          st.mtime = f.mtime) →
        ¬ f.relative ∈ r2.2.2.reads ∧ ¬ f.relative ∈ r2.2.2.chunked := by
  cases hrf : runFiles chunkFn embedFn files σ0
      { processed := 0, skipped := 0, removed := 0, chunksUpserted := 0,
        chunksDeleted := 0 }
      { reads := [], chunked := [], embedBatches := [] } with
  | error e =>
      simp only [runIndexer, hrf] at h1
      exact Except.noConfusion h1
  | ok triple =>
      obtain ⟨σA, statsA, traceA⟩ := triple
      simp only [runIndexer, hrf, Except.ok.injEq] at h1
      have hready1 := runFiles_ready owner chunkFn embedFn files σ0 _ _
        σA statsA traceA hσ0 hch hcov hnodup hrf
      have hreadyR : ∀ f ∈ files, readyFile chunkFn r1.1 f := by
        intro f hf
        have hseen : f.relative ∈ files.map fun file => file.relative :=
          List.mem_map.mpr ⟨f, hf, rfl⟩
        have hfr := reconcileRemovals_frame σA
          (files.map fun file => file.relative) statsA f.relative hseen
        have hr1 : r1.1 = (reconcileRemovals σA
            (files.map fun file => file.relative) statsA).1 := by
          rw [← h1]
        rw [hr1]
        exact readyFile_congr chunkFn σA _ f hfr.1 hfr.2 (hready1.2 f hf)
      rcases runFiles_ready_noop chunkFn embedFn files r1.1
        { processed := 0, skipped := 0, removed := 0, chunksUpserted := 0,
          chunksDeleted := 0 }
        { reads := [], chunked := [], embedBatches := [] } hreadyR
        with ⟨stats2, trace2, adds, hrun2, heb, hrd, hck, hadds⟩
      refine ⟨((reconcileRemovals r1.1
          (files.map fun file => file.relative) stats2).1,
        (reconcileRemovals r1.1
          (files.map fun file => file.relative) stats2).2, trace2),
        ?_, ?_, ?_⟩
      · simp only [runIndexer, hrun2]
      · rw [heb]
      · intro f hf hset
        constructor
        · rw [hrd]
          intro hmem
          rw [List.nil_append] at hmem
          rcases hadds _ hmem with ⟨f2, hf2, hf2q, hf2ns⟩
          have hff : f2 = f := List.inj_on_of_nodup_map hnodup hf2 hf hf2q
          rw [hff] at hf2ns
          exact hf2ns hset
        · rw [hck]
          intro hmem
          rw [List.nil_append] at hmem
          rcases hadds _ hmem with ⟨f2, hf2, hf2q, hf2ns⟩
          have hff : f2 = f := List.inj_on_of_nodup_map hnodup hf2 hf hf2q
          rw [hff] at hf2ns
          exact hf2ns hset

/-- Ownership map of the C3 witness: every chunk id belongs to a.md. -/
def c3Owner : String → String := fun _ => "a.md"

/-- The single corpus file of the C3 witness. -/
def c3File : VaultFile := { relative := "a.md", mtime := 7, markdown := "x" }

/-- Corpus of the C3 witness. -/
def c3Files : List VaultFile := [c3File]

/-- Chunker of the C3 witness: one chunk stamped with the file's path
and mtime and no embedding yet, as chunkMarkdown produces. -/
def c3ChunkFn : VaultFile → List ChunkRecord := fun f =>
  [{ sampleChunk "a.md#0" "a.md" [] with
      mtime := f.mtime
      embedding := none }]

/-- Adapter of the C3 witness: one unit vector per payload. -/
def c3Embed : EmbedFn := fun payloads =>
  Except.ok (payloads.map fun p => (p.1, [1]))

/-- Empty store the C3 witness starts from. -/
def c3Store0 : StoreState := { chunks := [], files := [] }

/-- Result of the first C3 witness run: the chunk embedded and stored,
the file state recorded, one read, one chunking and one embed batch. -/
def c3R1 : StoreState × IndexStats × IndexTrace :=
  ({ chunks := [{ sampleChunk "a.md#0" "a.md" [1] with mtime := 7 }],
     files := [("a.md",
       { mtime := 7, chunkCount := 1, contentHash := "hash" })] },
   { processed := 1, skipped := 0, removed := 0, chunksUpserted := 1,
     chunksDeleted := 0 },
   { reads := ["a.md"], chunked := ["a.md"],
     embedBatches := [[("a.md#0", "Heading: Note\n\nBody")]] })

section
attribute [local semireducible] Rat.mul Rat.add Rat.sub Rat.inv

/-- C3 (witness): the idempotence theorem applied to the concrete
one-file corpus; the first run is evaluated concretely, the second run
follows from the theorem. -/
theorem indexer_second_run_no_embedding_witness :
    storeOwned c3Owner c3Store0 ∧
    (∀ f ∈ c3Files, chunksStamped c3Owner c3ChunkFn f) ∧
    embedCovering c3Embed ∧
    (c3Files.map fun f => f.relative).Nodup ∧
    runIndexer c3ChunkFn c3Embed c3Files c3Store0 = Except.ok c3R1 ∧
    ∃ r2, runIndexer c3ChunkFn c3Embed c3Files c3R1.1 = Except.ok r2 ∧
      r2.2.2.embedBatches = [] ∧
      ∀ f ∈ c3Files, (∃ st, mapGet c3R1.1.files f.relative = some st ∧
          st.mtime = f.mtime) →
        ¬ f.relative ∈ r2.2.2.reads ∧ ¬ f.relative ∈ r2.2.2.chunked := by
  have hσ0 : storeOwned c3Owner c3Store0 := by
    intro c hc
    exact absurd hc (List.not_mem_nil c)
  have hch : ∀ f ∈ c3Files, chunksStamped c3Owner c3ChunkFn f := by
    intro f hf c hc
    obtain rfl := List.mem_singleton.mp hf
    obtain rfl := List.mem_singleton.mp hc
    exact ⟨rfl, rfl, rfl⟩
  have hcov : embedCovering c3Embed := by
    intro payloads
    refine ⟨payloads.map fun p : String × String => (p.1, ([1] : List ℚ)),
      rfl, ?_⟩
    intro p hp
    refine embeddingMapOf_isSome _ _ ?_
    rw [List.map_map]
    exact List.mem_map.mpr ⟨p, hp, rfl⟩
  have hnd : (c3Files.map fun f => f.relative).Nodup := by
    simp [c3Files]
  have h1 : runIndexer c3ChunkFn c3Embed c3Files c3Store0 =
      Except.ok c3R1 := by decide
  exact ⟨hσ0, hch, hcov, hnd, h1,
    indexer_second_run_no_embedding c3Owner c3ChunkFn c3Embed c3Files
      c3Store0 c3R1 hσ0 hch hcov hnd h1⟩

end

end VaultRag
